import Mathlib

/-!
Verification of the extraction pipeline of universal_scraper_web.

The development shallowly embeds the Python modules that the claims are
about:

* `src/utils/content_splitter.py` (ContentSplitter.split_markdown_to_blocks
  and ContentSplitter._recursive_split),
* `src/utils/ai_parser.py` (extract_json_from_text and
  clean_and_deduplicate_items),
* `src/core/extraction.py` (the per-batch normalization in process_batch),
* `src/ai/litellm_provider.py` (LiteLLMProvider._normalize_output),
* `src/utils/result_handler.py` (StreamResultHandler),
* `src/core/pipeline.py` (ExtractionPipeline.run / _process_batch).

Python strings are modelled as `List Char`; Python JSON-like values as the
inductive `PyVal` below.  All definitions are written so that they compute
by kernel reduction (structural recursion, fuel where the Python loop is
not structurally recursive), so concrete scenarios can be settled with
`decide` / `rfl`.
-/

namespace Scraper

/-- The whitespace set of Python `str.strip()` with no argument, which is
also the character set of the regex class `\s` used by `re` on ASCII text:
space, tab, newline, carriage return, vertical tab, form feed. -/
def pyWs (c : Char) : Bool :=
  c = ' ' || c = '\t' || c = '\n' || c = '\r' || c = Char.ofNat 11 || c = Char.ofNat 12

/-- Python `str.strip()`: drop leading and trailing whitespace.  The
trailing side is implemented by reversing, dropping, and reversing back. -/
def pyStrip (s : List Char) : List Char :=
  (((s.dropWhile pyWs).reverse.dropWhile pyWs)).reverse

/-- Python `text.split(sep)` for the two-character separator `"\n\n"`:
split on non-overlapping occurrences, scanning left to right.  `acc` holds
the current piece reversed. -/
def splitNNAux : List Char → List Char → List (List Char)
  | acc, [] => [acc.reverse]
  | acc, [c] => [(c :: acc).reverse]
  | acc, c :: d :: rest =>
    if c = '\n' && d = '\n' then acc.reverse :: splitNNAux [] rest
    else splitNNAux (c :: acc) (d :: rest)

/-- Python `text.split("\n\n")`. -/
def splitNN (s : List Char) : List (List Char) :=
  splitNNAux [] s

/-- Python `re.split(r'\n(?=\[)', markdown)` from the Batdongsan heuristic:
split at every newline that is immediately followed by `[`; the newline is
consumed, the bracket stays with the following piece. -/
def splitNLBracketAux : List Char → List Char → List (List Char)
  | acc, [] => [acc.reverse]
  | acc, [c] => [(c :: acc).reverse]
  | acc, c :: d :: rest =>
    if c = '\n' && d = '[' then acc.reverse :: splitNLBracketAux ['['] rest
    else splitNLBracketAux (c :: acc) (d :: rest)

/-- `re.split(r'\n(?=\[)', markdown)`. -/
def splitNLBracket (s : List Char) : List (List Char) :=
  splitNLBracketAux [] s

/-- Python `"\n[" in markdown`. -/
def hasNLBracket : List Char → Bool
  | [] => false
  | [_] => false
  | c :: d :: rest => (c = '\n' && d = '[') || hasNLBracket (d :: rest)

/-- The heuristic fallback of `split_markdown_to_blocks` (strategy 2): if
the text contains `"\n["`, split before bracketed list items, otherwise
split on blank-line paragraph boundaries. -/
def autoSplit (markdown : List Char) : List (List Char) :=
  if hasNLBracket markdown then splitNLBracket markdown else splitNN markdown

/-- The hard-split `while` loop inside `ContentSplitter._recursive_split`:

    while len(current_chunk) > max_chars:
        chunks.append(current_chunk[:max_chars])
        current_chunk = current_chunk[max_chars:]

Returns the appended chunks (in order) and the final `current_chunk`.
The recursion is fuelled because the loop is not structurally recursive;
`fuel = len(current_chunk)` is always enough, since every iteration
removes `max_chars ≥ 1` characters.  (With `max_chars = 0` the Python
loop does not terminate; the model is only used with positive
`max_chars`.) -/
def hardSplitAux (m : Nat) : Nat → List Char → List (List Char) × List Char
  | 0, cc => ([], cc)
  | fuel + 1, cc =>
    if cc.length ≤ m then ([], cc)
    else
      let r := hardSplitAux m fuel (cc.drop m)
      (cc.take m :: r.1, r.2)

/-- The hard-split loop, with enough fuel for any input. -/
def hardSplit (m : Nat) (cc : List Char) : List (List Char) × List Char :=
  hardSplitAux m cc.length cc

/-- The two-newline separator appended by `current_chunk += sub + "\n\n"`. -/
def nn : List Char := ['\n', '\n']

/-- The `for sub in sub_blocks` loop of `ContentSplitter._recursive_split`.
State: the accumulated `chunks` list and the running `current_chunk`.

    for sub in sub_blocks:
        if len(current_chunk) + len(sub) < max_chars:
            current_chunk += sub + "\n\n"
        else:
            if current_chunk:
                chunks.append(current_chunk.strip())
            current_chunk = sub + "\n\n"
            if len(current_chunk) > max_chars:
                while len(current_chunk) > max_chars: ...  (hardSplit)
-/
def packLoop (m : Nat) : List (List Char) → List Char → List (List Char) →
    List (List Char) × List Char
  | [], cc, chunks => (chunks, cc)
  | sub :: rest, cc, chunks =>
    if cc.length + sub.length < m then
      packLoop m rest (cc ++ sub ++ nn) chunks
    else
      let chunks1 := if cc = [] then chunks else chunks ++ [pyStrip cc]
      let hs := hardSplit m (sub ++ nn)
      packLoop m rest hs.2 (chunks1 ++ hs.1)

/-- `ContentSplitter._recursive_split(text, max_chars)`. -/
def recursive_split (text : List Char) (m : Nat) : List (List Char) :=
  if text.length ≤ m then [text]
  else
    let r := packLoop m (splitNN text) [] []
    if r.2 = [] then r.1 else r.1 ++ [pyStrip r.2]

/-- Step 3 of `split_markdown_to_blocks`: strip each raw block, drop it when
its stripped length is at most 300 characters, re-split it when it is still
longer than `max_chars`, keep it otherwise. -/
def postProcess (m : Nat) : List (List Char) → List (List Char)
  | [] => []
  | b :: rest =>
    let t := pyStrip b
    if t.length ≤ 300 then postProcess m rest
    else if m < t.length then recursive_split t m ++ postProcess m rest
    else t :: postProcess m rest

/-- `ContentSplitter.split_markdown_to_blocks(markdown, max_chars,
ai_split_pattern)`.  The custom regex split of strategy 1 is abstracted as
an arbitrary function `custom : List Char → List (List Char)` (the result
of `re.split(pattern, markdown)` for a compiled pattern); `none` covers
both an absent pattern and one that failed to compile, in which case the
code falls through to the heuristic with `raw_blocks` still empty — as it
also does when the custom split returns an empty list (`if not raw_blocks`). -/
def split_markdown_to_blocks (markdown : List Char) (m : Nat)
    (custom : Option (List Char → List (List Char))) : List (List Char) :=
  if markdown = [] then []
  else
    let raw :=
      match custom with
      | some f => let r := f markdown; if r = [] then autoSplit markdown else r
      | none => autoSplit markdown
    postProcess m raw

/-! ### Lemmas about stripping -/

theorem length_dropWhile_le (p : Char → Bool) (l : List Char) :
    (l.dropWhile p).length ≤ l.length := by
  induction l with
  | nil => simp
  | cons c rest ih =>
    by_cases h : p c
    · simp [List.dropWhile, h]; omega
    · simp [List.dropWhile, h]

theorem pyStrip_length_le (s : List Char) : (pyStrip s).length ≤ s.length := by
  unfold pyStrip
  calc ((s.dropWhile pyWs).reverse.dropWhile pyWs).reverse.length
      = ((s.dropWhile pyWs).reverse.dropWhile pyWs).length := by simp
    _ ≤ (s.dropWhile pyWs).reverse.length := length_dropWhile_le _ _
    _ = (s.dropWhile pyWs).length := by simp
    _ ≤ s.length := length_dropWhile_le _ _

theorem pyStrip_append_ws (l : List Char) (c : Char) (hc : pyWs c = true) :
    pyStrip (l ++ [c]) = pyStrip l := by
  unfold pyStrip
  rcases h : l.dropWhile pyWs with _ | ⟨d, ds⟩
  · have hall : ∀ x ∈ l, pyWs x := List.dropWhile_eq_nil_iff.mp h
    have h2 : (l ++ [c]).dropWhile pyWs = [] := by
      apply List.dropWhile_eq_nil_iff.mpr
      intro x hx
      rcases List.mem_append.mp hx with hx | hx
      · exact hall x hx
      · simp at hx; subst hx; exact hc
    simp [h2]
  · have h2 : (l ++ [c]).dropWhile pyWs = (d :: ds) ++ [c] := by
      rw [List.dropWhile_append, h]; simp
    rw [h2]
    simp [List.dropWhile, hc]

theorem pyStrip_append_nn (l : List Char) : pyStrip (l ++ nn) = pyStrip l := by
  have h : l ++ nn = (l ++ ['\n']) ++ ['\n'] := by simp [nn]
  rw [h, pyStrip_append_ws _ _ (by decide), pyStrip_append_ws _ _ (by decide)]

/-! ### Bounds for the hard-split loop -/

theorem hardSplitAux_of_le (m fuel : Nat) (cc : List Char) (h : cc.length ≤ m) :
    hardSplitAux m fuel cc = ([], cc) := by
  cases fuel with
  | zero => rfl
  | succ f => simp [hardSplitAux, h]

theorem hardSplitAux_bound (m : Nat) (hm : 0 < m) (fuel : Nat) :
    ∀ cc : List Char, cc.length ≤ fuel →
      (∀ ch ∈ (hardSplitAux m fuel cc).1, ch.length ≤ m) ∧
      (hardSplitAux m fuel cc).2.length ≤ m := by
  induction fuel with
  | zero =>
    intro cc hcc
    have : cc = [] := List.length_eq_zero.mp (Nat.le_zero.mp hcc)
    subst this
    simp [hardSplitAux]
  | succ f ih =>
    intro cc hcc
    by_cases hle : cc.length ≤ m
    · simp [hardSplitAux, hle]
    · have hrec := ih (cc.drop m) (by simp; omega)
      simp only [hardSplitAux, if_neg hle]
      constructor
      · intro ch hch
        rcases List.mem_cons.mp hch with hch | hch
        · subst hch; simp
        · exact hrec.1 ch hch
      · exact hrec.2

theorem hardSplit_bound (m : Nat) (hm : 0 < m) (cc : List Char) :
    (∀ ch ∈ (hardSplit m cc).1, ch.length ≤ m) ∧
    (hardSplit m cc).2.length ≤ m :=
  hardSplitAux_bound m hm cc.length cc (Nat.le_refl _)

/-! ### Bounds for the repacking loop of `_recursive_split` -/

/-- Invariant of `current_chunk` at the top of each `for sub in sub_blocks`
iteration: either it is already within the bound, or it is a buffer of
total content length below `max_chars` followed by the appended `"\n\n"`
separator (so its stripped form is within the bound). -/
def ccInv (m : Nat) (cc : List Char) : Prop :=
  cc.length ≤ m ∨ ∃ core, cc = core ++ nn ∧ core.length < m

theorem ccInv_strip_le (m : Nat) (cc : List Char) (h : ccInv m cc) :
    (pyStrip cc).length ≤ m := by
  rcases h with h | ⟨core, rfl, hlt⟩
  · exact Nat.le_trans (pyStrip_length_le cc) h
  · rw [pyStrip_append_nn]
    exact Nat.le_trans (pyStrip_length_le core) (Nat.le_of_lt hlt)

theorem packLoop_bound (m : Nat) (hm : 0 < m) (subs : List (List Char)) :
    ∀ cc chunks, ccInv m cc → (∀ ch ∈ chunks, ch.length ≤ m) →
      (∀ ch ∈ (packLoop m subs cc chunks).1, ch.length ≤ m) ∧
      ccInv m (packLoop m subs cc chunks).2 := by
  induction subs with
  | nil =>
    intro cc chunks hcc hchunks
    exact ⟨hchunks, hcc⟩
  | cons sub rest ih =>
    intro cc chunks hcc hchunks
    by_cases hfit : cc.length + sub.length < m
    · simp only [packLoop, if_pos hfit]
      apply ih
      · right
        refine ⟨cc ++ sub, by simp, by simp; omega⟩
      · exact hchunks
    · simp only [packLoop, if_neg hfit]
      apply ih
      · left; exact (hardSplit_bound m hm (sub ++ nn)).2
      · intro ch hch
        rcases List.mem_append.mp hch with hch | hch
        · by_cases hnil : cc = []
          · simp [hnil] at hch
            exact hchunks ch hch
          · simp [hnil] at hch
            rcases hch with hch | hch
            · exact hchunks ch hch
            · subst hch
              exact ccInv_strip_le m cc hcc
        · exact (hardSplit_bound m hm (sub ++ nn)).1 ch hch

theorem recursive_split_bound (text : List Char) (m : Nat) (hm : 0 < m) :
    ∀ ch ∈ recursive_split text m, ch.length ≤ m := by
  unfold recursive_split
  by_cases hle : text.length ≤ m
  · simp [hle]
  · simp only [if_neg hle]
    have h := packLoop_bound m hm (splitNN text) [] []
      (Or.inl (by simp)) (by simp)
    by_cases hnil : (packLoop m (splitNN text) [] []).2 = []
    · simp only [hnil, if_pos rfl]
      exact h.1
    · simp only [if_neg hnil]
      intro ch hch
      rcases List.mem_append.mp hch with hch | hch
      · exact h.1 ch hch
      · simp at hch; subst hch
        exact ccInv_strip_le m _ h.2

theorem postProcess_bound (m : Nat) (hm : 0 < m) (raws : List (List Char)) :
    ∀ b ∈ postProcess m raws, b.length ≤ m := by
  induction raws with
  | nil => simp [postProcess]
  | cons r rest ih =>
    intro b hb
    unfold postProcess at hb
    by_cases h300 : (pyStrip r).length ≤ 300
    · exact ih b (by simpa [h300] using hb)
    · by_cases hbig : m < (pyStrip r).length
      · simp only [if_neg h300, if_pos hbig] at hb
        rcases List.mem_append.mp hb with hb | hb
        · exact recursive_split_bound _ m hm b hb
        · exact ih b hb
      · simp only [if_neg h300, if_neg hbig] at hb
        rcases List.mem_cons.mp hb with hb | hb
        · subst hb; omega
        · exact ih b hb

/-- **C1.**  For every input text, every positive `maxChars`, and every
optional custom split (the abstraction of the optional regex pattern),
every block returned by `split_markdown_to_blocks` has length at most
`maxChars`; and the empty input yields the empty sequence of blocks. -/
theorem C1_blocks_bounded (markdown : List Char) (m : Nat)
    (custom : Option (List Char → List (List Char))) (hm : 0 < m) :
    (∀ b ∈ split_markdown_to_blocks markdown m custom, b.length ≤ m) ∧
    split_markdown_to_blocks [] m custom = [] := by
  constructor
  · unfold split_markdown_to_blocks
    by_cases hnil : markdown = []
    · simp [hnil]
    · simp only [if_neg hnil]
      cases custom with
      | none => exact postProcess_bound m hm _
      | some f =>
        by_cases hf : f markdown = []
        · simp only [hf, if_pos rfl]
          exact postProcess_bound m hm _
        · simp only [if_neg hf]
          exact postProcess_bound m hm _
  · simp [split_markdown_to_blocks]

/-- Witness for `C1_blocks_bounded` at a concrete input: a 10-character
document split with `maxChars = 4`. -/
theorem C1_blocks_bounded_witness :
    (0 : Nat) < 4 ∧
    (∀ b ∈ split_markdown_to_blocks ("abcde12345".data) 4 none, b.length ≤ 4) ∧
    split_markdown_to_blocks [] 4 none = [] :=
  ⟨by decide, C1_blocks_bounded ("abcde12345".data) 4 none (by decide)⟩

/-! ### Symbolic evaluation lemmas for the boilerplate-drop scenario (C8) -/

theorem splitNNAux_no_nl (l : List Char) (h : ∀ c ∈ l, c ≠ '\n') :
    ∀ acc, splitNNAux acc l = [acc.reverse ++ l] := by
  induction l with
  | nil => intro acc; simp [splitNNAux]
  | cons c rest ih =>
    intro acc
    have hc : c ≠ '\n' := h c (by simp)
    cases rest with
    | nil => simp [splitNNAux]
    | cons d t =>
      have hcond : (c = '\n' && d = '\n') = false := by
        simp [hc]
      simp only [splitNNAux, hcond, Bool.false_eq_true, if_false]
      rw [ih (fun x hx => h x (by simp [hx])) (c :: acc)]
      simp

theorem splitNNAux_prefix (pre : List Char) (h : ∀ c ∈ pre, c ≠ '\n') :
    ∀ suf acc, splitNNAux acc (pre ++ suf) = splitNNAux (pre.reverse ++ acc) suf := by
  induction pre with
  | nil => intro suf acc; simp
  | cons c pre' ih =>
    intro suf acc
    have hc : c ≠ '\n' := h c (by simp)
    cases hps : pre' ++ suf with
    | nil =>
      rcases List.append_eq_nil.mp hps with ⟨h1, h2⟩
      subst h1; subst h2
      simp [splitNNAux]
    | cons d t =>
      have : splitNNAux acc (c :: pre' ++ suf) = splitNNAux (c :: acc) (pre' ++ suf) := by
        rw [List.cons_append, hps]
        have hcond : (c = '\n' && d = '\n') = false := by simp [hc]
        simp only [splitNNAux, hcond, Bool.false_eq_true, if_false]
      rw [this, ih (fun x hx => h x (by simp [hx])) suf (c :: acc)]
      simp

theorem hasNLBracket_eq_false (l : List Char) (h : '[' ∉ l) :
    hasNLBracket l = false := by
  induction l with
  | nil => rfl
  | cons c rest ih =>
    cases rest with
    | nil => rfl
    | cons d t =>
      have hd : d ≠ '[' := by intro he; exact h (by simp [he])
      have := ih (fun he => h (List.mem_cons_of_mem c he))
      simp only [hasNLBracket, this, Bool.or_false, Bool.and_eq_true]
      simp [hd]

theorem pyStrip_no_ws (l : List Char) (h : ∀ c ∈ l, pyWs c = false) :
    pyStrip l = l := by
  have h1 : l.dropWhile pyWs = l := by
    cases l with
    | nil => rfl
    | cons c t => simp [List.dropWhile, h c (by simp)]
  have h2 : l.reverse.dropWhile pyWs = l.reverse := by
    cases hl : l.reverse with
    | nil => rfl
    | cons c t =>
      have hc : c ∈ l := by
        have : c ∈ l.reverse := by rw [hl]; simp
        simpa using this
      simp [List.dropWhile, h c hc]
  simp [pyStrip, h1, h2]

theorem hardSplit_once (m : Nat) (cc : List Char)
    (h1 : m < cc.length) (h2 : cc.length ≤ m + m) :
    hardSplit m cc = ([cc.take m], cc.drop m) := by
  obtain ⟨f, hf⟩ : ∃ f, cc.length = f + 1 :=
    Nat.exists_eq_succ_of_ne_zero (by omega)
  unfold hardSplit
  rw [hf]
  have hnle : ¬ cc.length ≤ m := by omega
  simp only [hardSplitAux, hf] at hnle ⊢
  rw [if_neg (by omega)]
  rw [hardSplitAux_of_le m f (cc.drop m) (by simp; omega)]

/-- The scenario markdown of §8 of the spec: 50 `A` characters, a blank
line, then 5000 `B` characters. -/
def c8Text : List Char :=
  List.replicate 50 'A' ++ nn ++ List.replicate 5000 'B'

theorem splitNNAux_sep (acc rest : List Char) :
    splitNNAux acc ('\n' :: '\n' :: rest) = acc.reverse :: splitNNAux [] rest := by
  simp [splitNNAux]

theorem c8_splitNN :
    splitNN c8Text = [List.replicate 50 'A', List.replicate 5000 'B'] := by
  unfold splitNN c8Text
  have hA : ∀ c ∈ List.replicate 50 'A', c ≠ '\n' := by
    intro c hc
    rw [List.eq_of_mem_replicate hc]; decide
  have hB : ∀ c ∈ List.replicate 5000 'B', c ≠ '\n' := by
    intro c hc
    rw [List.eq_of_mem_replicate hc]; decide
  rw [List.append_assoc, splitNNAux_prefix _ hA]
  show splitNNAux _ ('\n' :: '\n' :: List.replicate 5000 'B') = _
  rw [splitNNAux_sep, splitNNAux_no_nl _ hB]
  simp only [List.append_nil, List.reverse_reverse, List.reverse_nil, List.nil_append]

theorem c8_recursive_split :
    recursive_split (List.replicate 5000 'B') 4000 =
      [List.replicate 4000 'B', List.replicate 1000 'B'] := by
  unfold recursive_split
  rw [if_neg (by simp only [List.length_replicate]; omega)]
  have hB : ∀ c ∈ List.replicate 5000 'B', c ≠ '\n' := by
    intro c hc
    rw [List.eq_of_mem_replicate hc]; decide
  have hsplit : splitNN (List.replicate 5000 'B') = [List.replicate 5000 'B'] := by
    unfold splitNN
    rw [splitNNAux_no_nl _ hB]
    simp only [List.reverse_nil, List.nil_append]
  rw [hsplit]
  have hlen : ∀ k : Nat, (List.replicate k 'B' ++ nn).length = k + 2 := by
    intro k
    simp only [nn, List.length_append, List.length_replicate, List.length_cons,
      List.length_nil]
  have hhard : hardSplit 4000 (List.replicate 5000 'B' ++ nn) =
      ([List.replicate 4000 'B'], List.replicate 1000 'B' ++ nn) := by
    rw [hardSplit_once 4000 _ (by rw [hlen]; omega) (by rw [hlen]; omega)]
    rw [List.take_append_of_le_length (by simp only [List.length_replicate]; omega),
        List.drop_append_of_le_length (by simp only [List.length_replicate]; omega)]
    rw [List.take_replicate, List.drop_replicate]
    norm_num
  have hpack : packLoop 4000 [List.replicate 5000 'B'] [] [] =
      ([List.replicate 4000 'B'], List.replicate 1000 'B' ++ nn) := by
    simp only [packLoop]
    rw [if_neg (by simp only [List.length_nil, List.length_replicate]; omega)]
    simp only [if_pos rfl, hhard, List.nil_append]
    rfl
  rw [hpack]
  have hne : List.replicate 1000 'B' ++ nn ≠ [] :=
    List.ne_nil_of_length_pos (by rw [hlen]; omega)
  rw [if_neg hne]
  rw [pyStrip_append_nn, pyStrip_no_ws _ (by
    intro c hc
    rw [List.eq_of_mem_replicate hc]; decide)]
  rfl

theorem c8_blocks :
    split_markdown_to_blocks c8Text 4000 none =
      [List.replicate 4000 'B', List.replicate 1000 'B'] := by
  unfold split_markdown_to_blocks
  rw [if_neg (List.ne_nil_of_length_pos (by
    simp only [c8Text, nn, List.length_append, List.length_replicate,
      List.length_cons, List.length_nil]
    omega))]
  have hnb : hasNLBracket c8Text = false := by
    apply hasNLBracket_eq_false
    intro hmem
    simp only [c8Text, nn, List.mem_append, List.mem_replicate, List.mem_cons] at hmem
    rcases hmem with (⟨_, h⟩ | h) | ⟨_, h⟩
    · exact absurd h (by decide)
    · rcases h with h | h
      · exact absurd h (by decide)
      · rcases h with h | h
        · exact absurd h (by decide)
        · exact absurd h (by simp)
    · exact absurd h (by decide)
  show postProcess 4000 (autoSplit c8Text) = _
  unfold autoSplit
  rw [hnb]
  simp only [Bool.false_eq_true, if_false]
  rw [c8_splitNN]
  have hA : pyStrip (List.replicate 50 'A') = List.replicate 50 'A' :=
    pyStrip_no_ws _ (by intro c hc; rw [List.eq_of_mem_replicate hc]; decide)
  have hB : pyStrip (List.replicate 5000 'B') = List.replicate 5000 'B' :=
    pyStrip_no_ws _ (by intro c hc; rw [List.eq_of_mem_replicate hc]; decide)
  simp only [postProcess, hA, hB]
  rw [if_pos (by simp only [List.length_replicate]; omega),
    if_neg (by simp only [List.length_replicate]; omega),
    if_pos (by simp only [List.length_replicate]; omega)]
  rw [c8_recursive_split]
  simp only [postProcess, List.append_nil]

/-- **C8.**  Every raw candidate block whose stripped length is at most 300
characters is dropped by the post-processing step of the segmenter; and in
the concrete scenario (50 `A` characters, a blank line, 5000 `B`
characters, `maxChars = 4000`) the segmenter returns at least two blocks,
none longer than 4000 characters and none containing the dropped `A`
fragment. -/
theorem C8_short_blocks_dropped :
    (∀ (b : List Char) (rest : List (List Char)) (m : Nat),
      (pyStrip b).length ≤ 300 → postProcess m (b :: rest) = postProcess m rest) ∧
    2 ≤ (split_markdown_to_blocks c8Text 4000 none).length ∧
    (∀ b ∈ split_markdown_to_blocks c8Text 4000 none, b.length ≤ 4000) ∧
    (∀ b ∈ split_markdown_to_blocks c8Text 4000 none, 'A' ∉ b) := by
  refine ⟨?_, ?_, ?_, ?_⟩
  · intro b rest m hb
    simp [postProcess, hb]
  · rw [c8_blocks]
    simp only [List.length_cons, List.length_nil]
    omega
  · rw [c8_blocks]
    intro b hb
    rcases List.mem_cons.mp hb with rfl | hb
    · simp only [List.length_replicate]; omega
    · rcases List.mem_cons.mp hb with rfl | hb
      · simp only [List.length_replicate]; omega
      · simp at hb
  · rw [c8_blocks]
    intro b hb
    rcases List.mem_cons.mp hb with rfl | hb
    · intro hmem
      exact absurd (List.eq_of_mem_replicate hmem) (by decide)
    · rcases List.mem_cons.mp hb with rfl | hb
      · intro hmem
        exact absurd (List.eq_of_mem_replicate hmem) (by decide)
      · simp at hb

/-- Witness for `C8_short_blocks_dropped`: the drop rule applied to a
concrete two-character block. -/
theorem C8_short_blocks_dropped_witness :
    postProcess 5 ["ab".data] = postProcess 5 [] :=
  C8_short_blocks_dropped.1 "ab".data [] 5 (by decide)

/-! ## A model of Python JSON-like values

Lists and dicts are given their own cons/nil constructors (rather than
nesting `List PyVal`) so that every function below is structurally
recursive and computes by kernel reduction, and so that decidable equality
is derivable.  Well-shaped values have list-shaped tails in `listCons` and
dict-shaped tails in `dictCons`; the JSON printer and the parser only
produce and consume well-shaped values. -/

inductive PyVal where
  | null
  | bool (b : Bool)
  | num (n : Int)
  | str (s : List Char)
  | listNil
  | listCons (head tail : PyVal)
  | dictNil
  | dictCons (key : List Char) (val tail : PyVal)
deriving DecidableEq

namespace PyVal

/-- Python truthiness of a value (`bool(v)`). -/
def truthy : PyVal → Bool
  | .null => false
  | .bool b => b
  | .num n => n ≠ 0
  | .str s => s ≠ []
  | .listNil => false
  | .listCons _ _ => true
  | .dictNil => false
  | .dictCons _ _ _ => true

/-- `isinstance(v, dict)`. -/
def isDict : PyVal → Bool
  | .dictNil => true
  | .dictCons _ _ _ => true
  | _ => false

/-- `isinstance(v, list)`. -/
def isList : PyVal → Bool
  | .listNil => true
  | .listCons _ _ => true
  | _ => false

/-- `len(v)` of a list-shaped value. -/
def chainLen : PyVal → Nat
  | .listCons _ t => 1 + chainLen t
  | _ => 0

/-- The elements of a list-shaped value, as a Lean list. -/
def elems : PyVal → List PyVal
  | .listCons h t => h :: elems t
  | _ => []

/-- Build a list-shaped value from a Lean list. -/
def ofList : List PyVal → PyVal
  | [] => .listNil
  | v :: vs => .listCons v (ofList vs)

/-- The values of a dict-shaped value, in insertion order. -/
def dictVals : PyVal → List PyVal
  | .dictCons _ v t => v :: dictVals t
  | _ => []

/-- `item.get(k)` on a dict-shaped value: the first entry with key `k`. -/
def pyGet : PyVal → List Char → Option PyVal
  | .dictCons k v t, key => if k = key then some v else pyGet t key
  | _, _ => none

/-- `item[k] = v` on a dict-shaped value: replace the entry in place if the
key exists, append a new entry at the end otherwise (Python dicts keep
insertion order). -/
def pySet : PyVal → List Char → PyVal → PyVal
  | .dictCons k w t, key, v =>
    if k = key then .dictCons k v t else .dictCons k w (pySet t key v)
  | .dictNil, key, v => .dictCons key v .dictNil
  | other, _, _ => other

theorem elems_ofList (l : List PyVal) : elems (ofList l) = l := by
  induction l with
  | nil => rfl
  | cons v vs ih => simp [ofList, elems, ih]

end PyVal

/-! ## C2: normalization of a parsed response value

Two distinct implementations exist in the repository.  The claim is
checked against both. -/

open PyVal

/-- Is this value a non-empty Python list whose FIRST element is a dict
(the check `isinstance(value, list) and len(value) > 0 and
isinstance(value[0], dict)` of both normalizers)? -/
def candList : PyVal → Bool
  | .listCons h _ => isDict h
  | _ => false

/-- Is this value an empty Python list? -/
def isEmptyList : PyVal → Bool
  | .listNil => true
  | _ => false

/-- The `for key, value in batch_data.items()` loop of
`ManualBatchExtractor.extract.process_batch` collecting `candidate_lists`:
a value is appended when it is a non-empty list with a dict first element,
or (by the `elif`) when it is an empty list. -/
def collectCandidates : PyVal → List PyVal
  | .dictCons _ v t =>
    if candList v then v :: collectCandidates t
    else if isEmptyList v then v :: collectCandidates t
    else collectCandidates t
  | _ => []

/-- Python `max(candidates, key=len)` over list-shaped values: the first
candidate of maximal length. -/
def pyMaxLen (c : PyVal) : List PyVal → PyVal
  | [] => c
  | d :: ds => if chainLen d > chainLen c then pyMaxLen d ds else pyMaxLen c ds

/-- The normalization performed on a parsed batch value inside
`ManualBatchExtractor.extract.process_batch` (src/core/extraction.py,
lines 107 to 132): falsy data takes the failure branch and contributes no
items; a list is used as is; for a dict, candidate lists are collected and
one candidate is unwrapped, several select the longest, none wraps the
dict itself; any other (truthy) shape contributes no items. -/
def processBatchNormalize (d : PyVal) : List PyVal :=
  if ¬ truthy d then []
  else if isList d then elems d
  else if isDict d then
    match collectCandidates d with
    | [] => [d]
    | [c] => elems c
    | c :: cs => elems (pyMaxLen c cs)
  else []

/-- `LiteLLMProvider._normalize_output`'s scan: the first dict value that
is a non-empty list with a dict first element. -/
def findFirstCand : PyVal → Option PyVal
  | .dictCons _ v t => if candList v then some v else findFirstCand t
  | _ => none

/-- `LiteLLMProvider._normalize_output` (src/ai/litellm_provider.py,
lines 130 to 141). -/
def normalize_output (d : PyVal) : List PyVal :=
  if isList d then elems d
  else if isDict d then
    match findFirstCand d with
    | some v => elems v
    | none => [d]
  else []

/-- A non-empty list all of whose elements are objects — the reading of
the claim ("a non-empty list of objects"). -/
def isNonEmptyListOfObjects : PyVal → Bool
  | .listCons h t => isDict h && (elems t).all isDict
  | _ => false

/-- The normalization as the claim words it: a list as is; an object with
exactly one field holding a non-empty list of objects unwraps to it, with
several such fields the longest such list is selected, with none the whole
object becomes a one-item list; any other shape yields the empty list.
This is the claim text, not the code. -/
def claimNormalize (d : PyVal) : List PyVal :=
  if isList d then elems d
  else if isDict d then
    match (dictVals d).filter isNonEmptyListOfObjects with
    | [] => [d]
    | [c] => elems c
    | c :: cs => elems (pyMaxLen c cs)
  else []

/-- Candidate predicate actually used by the batch extractor: an empty
list also counts as a candidate. -/
def extCandidate (v : PyVal) : Bool := candList v || isEmptyList v

/-- The behaviour of the batch-extractor normalization, written
independently of the code in selection style (filter over the field
values in insertion order). -/
def extSpecNormalize (d : PyVal) : List PyVal :=
  if ¬ truthy d then []
  else if isList d then elems d
  else if isDict d then
    match (dictVals d).filter extCandidate with
    | [] => [d]
    | [c] => elems c
    | c :: cs => elems (pyMaxLen c cs)
  else []

/-- The behaviour of the provider normalization, written independently of
the code in selection style (first match over the field values in
insertion order). -/
def provSpecNormalize (d : PyVal) : List PyVal :=
  if isList d then elems d
  else if isDict d then
    match (dictVals d).find? candList with
    | some v => elems v
    | none => [d]
  else []

theorem collectCandidates_eq (d : PyVal) :
    collectCandidates d = (dictVals d).filter extCandidate := by
  induction d with
  | dictCons k v t ihv iht =>
    by_cases hc : candList v
    · simp [collectCandidates, dictVals, List.filter, extCandidate, hc, iht]
    · by_cases he : isEmptyList v
      · simp [collectCandidates, dictVals, List.filter, extCandidate, hc, he, iht]
      · simp [collectCandidates, dictVals, List.filter, extCandidate, hc, he, iht]
  | _ => rfl

theorem findFirstCand_eq (d : PyVal) :
    findFirstCand d = (dictVals d).find? candList := by
  induction d with
  | dictCons k v t ihv iht =>
    by_cases hc : candList v
    · simp [findFirstCand, dictVals, List.find?, hc]
    · simp [findFirstCand, dictVals, List.find?, hc, iht]
  | _ => rfl

/-- **C2, counterexample.**  The claim describes a single normalization:
an object field counts only when it holds a non-empty list of objects, and
with several such fields the longest list wins.  Both code paths diverge
from it: the batch extractor also counts an empty-list field as a
candidate (so an object whose only field is an empty list yields the empty
list, not a one-item wrap), and the provider normalizer picks the first
matching field in insertion order, not the longest. -/
theorem C2_normalization_counterexample :
    processBatchNormalize (PyVal.dictCons "a".data PyVal.listNil PyVal.dictNil) ≠
      claimNormalize (PyVal.dictCons "a".data PyVal.listNil PyVal.dictNil) ∧
    normalize_output
        (PyVal.dictCons "a".data (ofList [PyVal.dictNil])
          (PyVal.dictCons "b".data (ofList [PyVal.dictNil, PyVal.dictNil])
            PyVal.dictNil)) ≠
      claimNormalize
        (PyVal.dictCons "a".data (ofList [PyVal.dictNil])
          (PyVal.dictCons "b".data (ofList [PyVal.dictNil, PyVal.dictNil])
            PyVal.dictNil)) := by
  constructor
  · decide
  · decide

/-- **C2, amended.**  The two normalizers behave as follows.  Both return
a list unchanged and return the empty list for a value that is neither a
list nor a dict.  The batch extractor maps every falsy parsed value
(including the empty dict) to the empty list; on a truthy dict it collects
as candidates every field value that is an empty list or a non-empty list
whose first element is an object, unwraps a single candidate, selects the
first longest of several, and wraps the dict as a one-item list when there
is none.  The provider normalizer unwraps to the first field value (in
insertion order) that is a non-empty list whose first element is an
object, and wraps the dict when no field matches. -/
theorem C2_normalization_amended (d : PyVal) :
    processBatchNormalize d = extSpecNormalize d ∧
    normalize_output d = provSpecNormalize d := by
  constructor
  · unfold processBatchNormalize extSpecNormalize
    rw [collectCandidates_eq]
  · unfold normalize_output provSpecNormalize
    rw [findFirstCand_eq]

/-! ## JSON printing (`json.dumps(item, ensure_ascii=False)`) -/

/-- The opening brace character, kept out of string literals. -/
def lbrace : Char := Char.ofNat 123

/-- The closing brace character, kept out of string literals. -/
def rbrace : Char := Char.ofNat 125

/-- Decimal digits of `n`, little-endian, by fuelled division (`fuel = n`
always suffices, since a positive number has no more digits than its
value). -/
def natDigitsAux : Nat → Nat → List Nat
  | 0, _ => []
  | _ + 1, 0 => []
  | fuel + 1, n + 1 => ((n + 1) % 10) :: natDigitsAux fuel ((n + 1) / 10)

/-- The character of a decimal digit. -/
def digitCh (d : Nat) : Char := Char.ofNat (48 + d)

/-- Decimal rendering of a natural number (Python `str(n)` / `repr`). -/
def natRepr (n : Nat) : List Char :=
  if n = 0 then ['0'] else ((natDigitsAux n n).map digitCh).reverse

/-- Decimal rendering of an integer. -/
def intRepr : Int → List Char
  | .ofNat n => natRepr n
  | .negSucc n => '-' :: natRepr (n + 1)

/-- A hexadecimal digit character (lowercase). -/
def hexDigit (d : Nat) : Char :=
  if d < 10 then Char.ofNat (48 + d) else Char.ofNat (87 + d)

/-- `json.dumps` escaping of one character inside a string literal. -/
def escChar (c : Char) : List Char :=
  if c = '"' then ['\\', '"']
  else if c = '\\' then ['\\', '\\']
  else if c = '\n' then ['\\', 'n']
  else if c = '\t' then ['\\', 't']
  else if c = '\r' then ['\\', 'r']
  else if c = Char.ofNat 8 then ['\\', 'b']
  else if c = Char.ofNat 12 then ['\\', 'f']
  else if c.toNat < 32 then
    ['\\', 'u', '0', '0', hexDigit (c.toNat / 16), hexDigit (c.toNat % 16)]
  else [c]

/-- `json.dumps` of a string. -/
def dumpStr (s : List Char) : List Char :=
  '"' :: (s.map escChar).flatten ++ ['"']

/-- `json.dumps(v, ensure_ascii=False)` with the default separators
`", "` and `": "`.  The second rendering mode (`true`) renders the
continuation of a list or dict chain, emitting a `", "` separator before
each further element; this keeps the function structurally recursive. -/
def dumpsM : Bool → PyVal → List Char
  | _, .null => "null".data
  | _, .bool b => if b then "true".data else "false".data
  | _, .num n => intRepr n
  | _, .str s => dumpStr s
  | false, .listNil => ['[', ']']
  | false, .listCons h t => '[' :: (dumpsM false h ++ dumpsM true t) ++ [']']
  | false, .dictNil => [lbrace, rbrace]
  | false, .dictCons k v t =>
    lbrace :: (dumpStr k ++ ':' :: ' ' :: dumpsM false v ++ dumpsM true t) ++ [rbrace]
  | true, .listNil => []
  | true, .dictNil => []
  | true, .listCons h t => ',' :: ' ' :: (dumpsM false h ++ dumpsM true t)
  | true, .dictCons k v t =>
    ',' :: ' ' :: (dumpStr k ++ ':' :: ' ' :: dumpsM false v ++ dumpsM true t)

/-- `json.dumps(v, ensure_ascii=False)`. -/
def pyDumps (v : PyVal) : List Char := dumpsM false v

/-! ## JSON parsing (`json.loads`)

A recursive-descent parser for the JSON fragment produced and consumed by
the program: null, booleans, integers, strings with the simple named
escapes, arrays and objects.  Deviations from CPython `json.loads`, none
of which is reachable in the theorems below: floats and `\uXXXX` escapes
are rejected, a leading-zero integer is accepted, and raw control
characters inside strings are accepted.  The recursion is fuelled; the
fuel used by `pyJsonLoads` dominates every possible descent. -/

/-- The whitespace skipped by the JSON grammar (space, tab, newline,
carriage return). -/
def jsonWs (c : Char) : Bool :=
  c = ' ' || c = '\t' || c = '\n' || c = '\r'

/-- Skip JSON whitespace. -/
def skipWs (s : List Char) : List Char := s.dropWhile jsonWs

/-- Decode one character escape. -/
def unescape (e : Char) : Option Char :=
  if e = '"' then some '"'
  else if e = '\\' then some '\\'
  else if e = '/' then some '/'
  else if e = 'n' then some '\n'
  else if e = 't' then some '\t'
  else if e = 'r' then some '\r'
  else if e = 'b' then some (Char.ofNat 8)
  else if e = 'f' then some (Char.ofNat 12)
  else none

/-- Parse the body of a string literal (after the opening quote), up to
and including the closing quote. -/
def parseStrBody : List Char → Option (List Char × List Char)
  | [] => none
  | c :: rest =>
    if c = '"' then some ([], rest)
    else if c = '\\' then
      match rest with
      | [] => none
      | e :: rest2 =>
        match unescape e with
        | some u => (parseStrBody rest2).map (fun r => (u :: r.1, r.2))
        | none => none
    else (parseStrBody rest).map (fun r => (c :: r.1, r.2))

/-- Read a maximal run of decimal digits as a natural number. -/
def readNat (s : List Char) : Option (Nat × List Char) :=
  let ds := s.takeWhile Char.isDigit
  if ds = [] then none
  else some (ds.foldl (fun a c => 10 * a + (c.toNat - 48)) 0, s.dropWhile Char.isDigit)

/-- Parsing modes: a value, the items of an array after `[`, or the fields
of an object after the opening brace. -/
inductive PMode where
  | value
  | items
  | fields

/-- The fuelled recursive-descent JSON reader. -/
def parseF : Nat → PMode → List Char → Option (PyVal × List Char)
  | 0, _, _ => none
  | fuel + 1, .value, s =>
    match skipWs s with
    | [] => none
    | c :: r =>
      if c = '[' then
        match skipWs r with
        | [] => none
        | d :: r2 => if d = ']' then some (.listNil, r2)
                     else parseF fuel .items (d :: r2)
      else if c = lbrace then
        match skipWs r with
        | [] => none
        | d :: r2 => if d = rbrace then some (.dictNil, r2)
                     else parseF fuel .fields (d :: r2)
      else if c = '"' then
        (parseStrBody r).map (fun p => (.str p.1, p.2))
      else if c = 't' then
        if "rue".data.isPrefixOf r then some (.bool true, r.drop 3) else none
      else if c = 'f' then
        if "alse".data.isPrefixOf r then some (.bool false, r.drop 4) else none
      else if c = 'n' then
        if "ull".data.isPrefixOf r then some (.null, r.drop 3) else none
      else if c = '-' then
        match readNat r with
        | some (k, r2) => some (.num (-(k : Int)), r2)
        | none => none
      else
        match readNat (c :: r) with
        | some (k, r2) => some (.num (k : Int), r2)
        | none => none
  | fuel + 1, .items, s =>
    match parseF fuel .value s with
    | none => none
    | some (v, r) =>
      match skipWs r with
      | [] => none
      | d :: r2 =>
        if d = ',' then
          match parseF fuel .items r2 with
          | some (tl, r3) => some (.listCons v tl, r3)
          | none => none
        else if d = ']' then some (.listCons v .listNil, r2)
        else none
  | fuel + 1, .fields, s =>
    match skipWs s with
    | [] => none
    | c :: r =>
      if c = '"' then
        match parseStrBody r with
        | some (k, r1) =>
          match skipWs r1 with
          | [] => none
          | d :: r2 =>
            if d = ':' then
              match parseF fuel .value r2 with
              | none => none
              | some (v, r3) =>
                match skipWs r3 with
                | [] => none
                | e :: r4 =>
                  if e = ',' then
                    match parseF fuel .fields r4 with
                    | some (tl, r5) => some (.dictCons k v tl, r5)
                    | none => none
                  else if e = rbrace then some (.dictCons k v .dictNil, r4)
                  else none
            else none
        | none => none
      else none

/-- `json.loads(s)`: parse one value and require only whitespace after
it. -/
def pyJsonLoads (s : List Char) : Option PyVal :=
  match parseF (2 * s.length + 4) .value s with
  | some (v, r) => if skipWs r = [] then some v else none
  | none => none

/-! ### Well-shaped values and the fuel measure for the parser -/

/-- Strings free of control characters: on these, `json.dumps` uses only
the simple named escapes, which the reader inverts. -/
def wfStr (s : List Char) : Bool := s.all (fun c => 32 ≤ c.toNat)

/-- Well-shaped values: chain tails have the right shape, all strings are
control-free, numbers are integers (by construction). -/
def wfVal : PyVal → Bool
  | .null => true
  | .bool _ => true
  | .num _ => true
  | .str s => wfStr s
  | .listNil => true
  | .listCons h t => wfVal h && isList t && wfVal t
  | .dictNil => true
  | .dictCons k v t => wfStr k && wfVal v && isDict t && wfVal t

/-- A fuel measure dominating the descent of `parseF` over a dumped
value. -/
def fu : PyVal → Nat
  | .null => 1
  | .bool _ => 1
  | .num _ => 1
  | .str _ => 1
  | .listNil => 1
  | .listCons h t => 2 + fu h + fu t
  | .dictNil => 1
  | .dictCons _ v t => 2 + fu v + fu t

/-- The continuation after a dumped number must not begin with a digit
(otherwise the maximal-munch digit reader would continue into it). -/
def safeRest (rest : List Char) : Prop :=
  ∀ c, rest.head? = some c → c.isDigit = false

/-! ### Whitespace helpers -/

theorem skipWs_append_ws (sp X : List Char) (h : ∀ c ∈ sp, jsonWs c = true) :
    skipWs (sp ++ X) = skipWs X := by
  induction sp with
  | nil => rfl
  | cons c sp' ih =>
    simp only [List.cons_append, skipWs, List.dropWhile]
    rw [h c (by simp)]
    exact ih (fun x hx => h x (by simp [hx]))

theorem skipWs_not_ws (c : Char) (X : List Char) (h : jsonWs c = false) :
    skipWs (c :: X) = c :: X := by
  simp only [skipWs, List.dropWhile, h]

theorem parseVal_ws (fuel : Nat) (sp X : List Char)
    (h : ∀ c ∈ sp, jsonWs c = true) :
    parseF fuel .value (sp ++ X) = parseF fuel .value X := by
  cases fuel with
  | zero => rfl
  | succ f =>
    show (match skipWs (sp ++ X) with
      | [] => none
      | c :: r => _) = _
    rw [skipWs_append_ws sp X h]
    rfl

/-! ### Number rendering and reading -/

theorem natDigitsAux_lt10 (fuel n d : Nat) (h : d ∈ natDigitsAux fuel n) :
    d < 10 := by
  induction fuel generalizing n with
  | zero => simp [natDigitsAux] at h
  | succ f ih =>
    cases n with
    | zero => simp [natDigitsAux] at h
    | succ m =>
      simp only [natDigitsAux, List.mem_cons] at h
      rcases h with rfl | h
      · exact Nat.mod_lt _ (by omega)
      · exact ih _ h

theorem natDigitsAux_val (fuel n : Nat) (h : n ≤ fuel) :
    (natDigitsAux fuel n).foldr (fun d a => d + 10 * a) 0 = n := by
  induction fuel generalizing n with
  | zero =>
    interval_cases n
    rfl
  | succ f ih =>
    cases n with
    | zero => rfl
    | succ m =>
      simp only [natDigitsAux, List.foldr]
      rw [ih ((m + 1) / 10) (by omega)]
      omega

theorem natDigitsAux_ne_nil (fuel n : Nat) (h0 : n ≠ 0) (h : n ≤ fuel) :
    natDigitsAux fuel n ≠ [] := by
  cases fuel with
  | zero => omega
  | succ f =>
    cases n with
    | zero => omega
    | succ m => simp [natDigitsAux]

theorem digitCh_toNat (d : Nat) (h : d < 10) : (digitCh d).toNat = 48 + d := by
  interval_cases d <;> rfl

theorem digitCh_isDigit (d : Nat) (h : d < 10) : (digitCh d).isDigit = true := by
  interval_cases d <;> rfl

theorem natRepr_ne_nil (n : Nat) : natRepr n ≠ [] := by
  unfold natRepr
  by_cases h : n = 0
  · simp [h]
  · simp only [h, if_false]
    intro he
    apply natDigitsAux_ne_nil n n h (Nat.le_refl n)
    have := congrArg List.length he
    simp only [List.length_reverse, List.length_map, List.length_nil] at this
    exact List.length_eq_zero.mp this

theorem natRepr_all_digits (n : Nat) : ∀ c ∈ natRepr n, c.isDigit = true := by
  unfold natRepr
  by_cases h : n = 0
  · simp only [h, if_pos rfl]
    intro c hc
    simp at hc
    subst hc
    rfl
  · simp only [h, if_false]
    intro c hc
    rw [List.mem_reverse] at hc
    obtain ⟨d, hd, rfl⟩ := List.mem_map.mp hc
    exact digitCh_isDigit d (natDigitsAux_lt10 n n d hd)

theorem takeWhile_all_append (p : Char → Bool) (a : List Char)
    (ha : ∀ c ∈ a, p c = true) (rest : List Char)
    (hr : ∀ c, rest.head? = some c → p c = false) :
    (a ++ rest).takeWhile p = a ∧ (a ++ rest).dropWhile p = rest := by
  induction a with
  | nil =>
    simp only [List.nil_append]
    cases rest with
    | nil => simp [List.takeWhile, List.dropWhile]
    | cons c r =>
      have := hr c (by simp)
      simp [List.takeWhile, List.dropWhile, this]
  | cons c a' ih =>
    have hc := ha c (by simp)
    have := ih (fun x hx => ha x (by simp [hx]))
    simp only [List.cons_append, List.takeWhile, List.dropWhile, hc]
    simp [this.1, this.2]

theorem isDigit_facts (c : Char) (h : c.isDigit = true) :
    jsonWs c = false ∧ c ≠ ']' ∧ c ≠ ',' ∧ c ≠ '[' ∧ c ≠ lbrace ∧
    c ≠ rbrace ∧ c ≠ '"' ∧ c ≠ 't' ∧ c ≠ 'f' ∧ c ≠ 'n' ∧ c ≠ '-' := by
  refine ⟨?_, ?_, ?_, ?_, ?_, ?_, ?_, ?_, ?_, ?_, ?_⟩ <;>
    first
    | (intro he; subst he; exact absurd h (by decide))
    | (by_cases hw : jsonWs c = false
       · exact hw
       · exfalso
         simp only [Bool.not_eq_false] at hw
         simp only [jsonWs, Bool.or_eq_true, decide_eq_true_eq] at hw
         rcases hw with ((rfl | rfl) | rfl) | rfl <;> exact absurd h (by decide))

theorem readNat_repr (n : Nat) (rest : List Char) (hrest : safeRest rest) :
    readNat (natRepr n ++ rest) = some (n, rest) := by
  have hall := natRepr_all_digits n
  obtain ⟨htake, hdrop⟩ := takeWhile_all_append Char.isDigit (natRepr n) hall rest hrest
  unfold readNat
  rw [htake, hdrop]
  simp only [natRepr_ne_nil n, if_false]
  have hval : (natRepr n).foldl (fun a c => 10 * a + (c.toNat - 48)) 0 = n := by
    unfold natRepr
    by_cases h : n = 0
    · simp [h]
    · simp only [h, if_false]
      rw [List.foldl_reverse, List.foldr_map]
      have hfold : ∀ (l : List Nat), (∀ d ∈ l, d < 10) →
          l.foldr (fun x y => 10 * y + ((digitCh x).toNat - 48)) 0 =
          l.foldr (fun d a => d + 10 * a) 0 := by
        intro l hl
        induction l with
        | nil => rfl
        | cons d l' ihl =>
          simp only [List.foldr]
          rw [ihl (fun x hx => hl x (by simp [hx])), digitCh_toNat d (hl d (by simp))]
          omega
      rw [hfold _ (fun d hd => natDigitsAux_lt10 n n d hd)]
      exact natDigitsAux_val n n (Nat.le_refl n)
  rw [hval]

/-! ### String round-trip -/

theorem parseStrBody_quote (rest : List Char) :
    parseStrBody ('"' :: rest) = some ([], rest) := by
  conv_lhs => unfold parseStrBody
  rw [if_pos rfl]

theorem parseStrBody_esc (e : Char) (rest2 : List Char) :
    parseStrBody ('\\' :: e :: rest2) =
      match unescape e with
      | some u => (parseStrBody rest2).map (fun r => (u :: r.1, r.2))
      | none => none := by
  conv_lhs => unfold parseStrBody
  rw [if_neg (by decide), if_pos rfl]

theorem parseStrBody_other (c : Char) (rest : List Char)
    (hq : c ≠ '"') (hb : c ≠ '\\') :
    parseStrBody (c :: rest) = (parseStrBody rest).map (fun r => (c :: r.1, r.2)) := by
  conv_lhs => unfold parseStrBody
  rw [if_neg hq, if_neg hb]

theorem parseStrBody_round (s : List Char) (h : wfStr s = true) (rest : List Char) :
    parseStrBody ((s.map escChar).flatten ++ '"' :: rest) = some (s, rest) := by
  induction s with
  | nil =>
    simp only [List.map_nil, List.flatten_nil, List.nil_append]
    exact parseStrBody_quote rest
  | cons c s' ih =>
    have h32 : 32 ≤ c.toNat := by
      have := (List.all_eq_true.mp h) c (by simp)
      simpa using this
    have hs' : wfStr s' = true := by
      apply List.all_eq_true.mpr
      intro x hx
      exact (List.all_eq_true.mp h) x (by simp [hx])
    have ihs := ih hs'
    simp only [List.map_cons, List.flatten_cons, List.append_assoc]
    by_cases hq : c = '"'
    · subst hq
      rw [show escChar '"' = ['\\', '"'] from rfl]
      simp only [List.cons_append, List.nil_append]
      rw [parseStrBody_esc, show unescape '"' = some '"' from rfl, ihs]
      rfl
    · by_cases hb : c = '\\'
      · subst hb
        rw [show escChar '\\' = ['\\', '\\'] from rfl]
        simp only [List.cons_append, List.nil_append]
        rw [parseStrBody_esc, show unescape '\\' = some '\\' from rfl, ihs]
        rfl
      · have hn : c ≠ '\n' := by intro he; subst he; exact absurd h32 (by decide)
        have ht : c ≠ '\t' := by intro he; subst he; exact absurd h32 (by decide)
        have hr : c ≠ '\r' := by intro he; subst he; exact absurd h32 (by decide)
        have h8 : c ≠ Char.ofNat 8 := by
          intro he; rw [he] at h32; exact absurd h32 (by decide)
        have h12 : c ≠ Char.ofNat 12 := by
          intro he; rw [he] at h32; exact absurd h32 (by decide)
        have hlt : ¬ c.toNat < 32 := by omega
        have hesc : escChar c = [c] := by
          unfold escChar
          rw [if_neg hq, if_neg hb, if_neg hn, if_neg ht, if_neg hr, if_neg h8,
            if_neg h12, if_neg hlt]
        rw [hesc]
        simp only [List.cons_append, List.nil_append]
        rw [parseStrBody_other c _ hq hb, ihs]
        rfl

/-! ### The first character of a dumped value -/

/-- The first character of a dumped value is never whitespace, `]`, `,`,
nor `:`, so `skipWs` leaves a dumped value alone and the chain separators
around it are unambiguous. -/
theorem dumps_head (v : PyVal) :
    ∃ d ds, pyDumps v = d :: ds ∧ jsonWs d = false ∧ d ≠ ']' ∧ d ≠ ',' := by
  cases v with
  | num n =>
    cases n with
    | ofNat m =>
      obtain ⟨d, ds, heq⟩ : ∃ d ds, natRepr m = d :: ds := by
        cases hr : natRepr m with
        | nil => exact absurd hr (natRepr_ne_nil m)
        | cons d ds => exact ⟨d, ds, rfl⟩
      have hd : d.isDigit = true := natRepr_all_digits m d (by rw [heq]; simp)
      obtain ⟨hw, h1, h2, _⟩ := isDigit_facts d hd
      exact ⟨d, ds, by simpa [pyDumps, dumpsM, intRepr] using heq, hw, h1, h2⟩
    | negSucc m => refine ⟨'-', _, rfl, ?_, ?_, ?_⟩ <;> decide
  | bool b => cases b <;> refine ⟨_, _, rfl, ?_, ?_, ?_⟩ <;> decide
  | null => refine ⟨'n', _, rfl, ?_, ?_, ?_⟩ <;> decide
  | str s => refine ⟨'"', _, rfl, ?_, ?_, ?_⟩ <;> decide
  | listNil => refine ⟨'[', _, rfl, ?_, ?_, ?_⟩ <;> decide
  | listCons h t => refine ⟨'[', _, rfl, ?_, ?_, ?_⟩ <;> decide
  | dictNil => refine ⟨lbrace, [rbrace], rfl, ?_, ?_, ?_⟩ <;> decide
  | dictCons k w t => refine ⟨lbrace, _, rfl, ?_, ?_, ?_⟩ <;> decide


/-- The array body right after a `[` (value mode of `parseF`). -/
def arrOpen (fuel : Nat) : List Char → Option (PyVal × List Char)
  | [] => none
  | d :: r2 => if d = ']' then some (.listNil, r2) else parseF fuel .items (d :: r2)

/-- The object body right after an opening brace (value mode of
`parseF`). -/
def objOpen (fuel : Nat) : List Char → Option (PyVal × List Char)
  | [] => none
  | d :: r2 => if d = rbrace then some (.dictNil, r2) else parseF fuel .fields (d :: r2)

/-- The body of the value mode of `parseF` on a non-empty input, as a
plain function (used to state clean equation lemmas). -/
def valStep (fuel : Nat) (c : Char) (r : List Char) : Option (PyVal × List Char) :=
  if c = '[' then arrOpen fuel (skipWs r)
  else if c = lbrace then objOpen fuel (skipWs r)
  else if c = '"' then
    (parseStrBody r).map (fun p => (.str p.1, p.2))
  else if c = 't' then
    if "rue".data.isPrefixOf r then some (.bool true, r.drop 3) else none
  else if c = 'f' then
    if "alse".data.isPrefixOf r then some (.bool false, r.drop 4) else none
  else if c = 'n' then
    if "ull".data.isPrefixOf r then some (.null, r.drop 3) else none
  else if c = '-' then
    match readNat r with
    | some (k, r2) => some (.num (-(k : Int)), r2)
    | none => none
  else
    match readNat (c :: r) with
    | some (k, r2) => some (.num (k : Int), r2)
    | none => none

/-- The continuation of the items mode after one parsed element. -/
def itemsCont (fuel : Nat) (v : PyVal) (d : Char) (r2 : List Char) :
    Option (PyVal × List Char) :=
  if d = ',' then
    match parseF fuel .items r2 with
    | some (tl, r3) => some (.listCons v tl, r3)
    | none => none
  else if d = ']' then some (.listCons v .listNil, r2)
  else none

/-- The continuation of the fields mode after one parsed key and value. -/
def fieldsCont (fuel : Nat) (k : List Char) (v : PyVal) (e : Char) (r4 : List Char) :
    Option (PyVal × List Char) :=
  if e = ',' then
    match parseF fuel .fields r4 with
    | some (tl, r5) => some (.dictCons k v tl, r5)
    | none => none
  else if e = rbrace then some (.dictCons k v .dictNil, r4)
  else none

theorem arrOpen_cons (fuel : Nat) (d : Char) (r2 : List Char) :
    arrOpen fuel (d :: r2) =
      if d = ']' then some (.listNil, r2) else parseF fuel .items (d :: r2) := rfl

theorem objOpen_cons (fuel : Nat) (d : Char) (r2 : List Char) :
    objOpen fuel (d :: r2) =
      if d = rbrace then some (.dictNil, r2) else parseF fuel .fields (d :: r2) := rfl

theorem parseF_value_cons (fuel : Nat) (c : Char) (r : List Char)
    (hc : jsonWs c = false) :
    parseF (fuel + 1) .value (c :: r) = valStep fuel c r := by
  conv_lhs => unfold parseF
  rw [skipWs_not_ws c r hc]
  rfl

theorem parseF_items_eq (fuel : Nat) (s : List Char) :
    parseF (fuel + 1) .items s =
      match parseF fuel .value s with
      | none => none
      | some (v, r) =>
        match skipWs r with
        | [] => none
        | d :: r2 => itemsCont fuel v d r2 := by
  conv_lhs => unfold parseF
  rfl

theorem parseF_items_run (fuel : Nat) (s : List Char) (v : PyVal)
    (r : List Char) (d : Char) (r2 : List Char)
    (hval : parseF fuel .value s = some (v, r)) (hskip : skipWs r = d :: r2) :
    parseF (fuel + 1) .items s = itemsCont fuel v d r2 := by
  rw [parseF_items_eq, hval]
  show (match skipWs r with
    | [] => none
    | d :: r2 => itemsCont fuel v d r2) = _
  rw [hskip]

theorem parseF_fields_cons (fuel : Nat) (c : Char) (r : List Char)
    (hc : jsonWs c = false) :
    parseF (fuel + 1) .fields (c :: r) =
      (if c = '"' then
        match parseStrBody r with
        | some (k, r1) =>
          match skipWs r1 with
          | [] => none
          | d :: r2 =>
            if d = ':' then
              match parseF fuel .value r2 with
              | none => none
              | some (v, r3) =>
                match skipWs r3 with
                | [] => none
                | e :: r4 => fieldsCont fuel k v e r4
            else none
        | none => none
      else none) := by
  conv_lhs => unfold parseF
  rw [skipWs_not_ws c r hc]
  rfl

theorem parseF_fields_run (fuel : Nat) (r k r1 r2 : List Char) (v : PyVal)
    (r3 : List Char) (e : Char) (r4 : List Char)
    (h1 : parseStrBody r = some (k, r1))
    (h2 : skipWs r1 = ':' :: r2)
    (h3 : parseF fuel .value r2 = some (v, r3))
    (h4 : skipWs r3 = e :: r4) :
    parseF (fuel + 1) .fields ('"' :: r) = fieldsCont fuel k v e r4 := by
  rw [parseF_fields_cons fuel '"' r (by decide), if_pos rfl, h1]
  show (match skipWs r1 with
    | [] => none
    | d :: r2 =>
      if d = ':' then
        match parseF fuel .value r2 with
        | none => none
        | some (v, r3) =>
          match skipWs r3 with
          | [] => none
          | e :: r4 => fieldsCont fuel k v e r4
      else none) = _
  rw [h2]
  show (if (':' : Char) = ':' then
      match parseF fuel .value r2 with
      | none => none
      | some (v, r3) =>
        match skipWs r3 with
        | [] => none
        | e :: r4 => fieldsCont fuel k v e r4
    else none) = _
  rw [if_pos rfl, h3]
  show (match skipWs r3 with
    | [] => none
    | e :: r4 => fieldsCont fuel k v e r4) = _
  rw [h4]

theorem parseFields_ws (fuel : Nat) (sp X : List Char)
    (h : ∀ c ∈ sp, jsonWs c = true) :
    parseF fuel .fields (sp ++ X) = parseF fuel .fields X := by
  cases fuel with
  | zero => rfl
  | succ f =>
    show (match skipWs (sp ++ X) with
      | [] => none
      | c :: r => _) = _
    rw [skipWs_append_ws sp X h]
    rfl


theorem lbrace_ne :
    ('n' : Char) ≠ lbrace ∧ ('t' : Char) ≠ lbrace ∧ ('f' : Char) ≠ lbrace ∧
    ('"' : Char) ≠ lbrace ∧ ('-' : Char) ≠ lbrace ∧ ('[' : Char) ≠ lbrace := by
  decide

/-- The continuation of a well-shaped list chain followed by `]` never
starts with a digit. -/
theorem safeRest_listTail (t : PyVal) (ht : isList t = true) (rest : List Char) :
    safeRest (dumpsM true t ++ ']' :: rest) := by
  cases t with
  | listNil =>
    intro c hc
    simp only [dumpsM, List.nil_append, List.head?_cons, Option.some.injEq] at hc
    subst hc; decide
  | listCons h2 t2 =>
    intro c hc
    simp only [dumpsM, List.cons_append, List.head?_cons, Option.some.injEq] at hc
    subst hc; decide
  | _ => simp [isList] at ht

/-- The continuation of a well-shaped dict chain followed by the closing
brace never starts with a digit. -/
theorem safeRest_dictTail (t : PyVal) (ht : isDict t = true) (rest : List Char) :
    safeRest (dumpsM true t ++ rbrace :: rest) := by
  cases t with
  | dictNil =>
    intro c hc
    simp only [dumpsM, List.nil_append, List.head?_cons, Option.some.injEq] at hc
    subst hc; decide
  | dictCons k2 w2 t2 =>
    intro c hc
    simp only [dumpsM, List.cons_append, List.head?_cons, Option.some.injEq] at hc
    subst hc; decide
  | _ => simp [isDict] at ht

theorem valStep_lbracket (fuel : Nat) (r : List Char) :
    valStep fuel '[' r = arrOpen fuel (skipWs r) := by
  unfold valStep
  rw [if_pos rfl]

theorem valStep_lbrace (fuel : Nat) (r : List Char) :
    valStep fuel lbrace r = objOpen fuel (skipWs r) := by
  unfold valStep
  rw [if_neg (by decide), if_pos rfl]

/-- Round-trip: `parseF` reads back exactly what `dumpsM` wrote, for whole
values (mode `value`) and for chain continuations (modes `items`,
`fields`), on well-shaped values with enough fuel. -/
theorem parse_dumps (v : PyVal) :
    (∀ fuel rest, wfVal v = true → fu v < fuel → safeRest rest →
      parseF fuel .value (pyDumps v ++ rest) = some (v, rest)) ∧
    (∀ h t, v = .listCons h t →
      ∀ fuel sp rest, (∀ c ∈ sp, jsonWs c = true) → wfVal v = true → fu v ≤ fuel →
        parseF fuel .items (sp ++ (dumpsM false h ++ (dumpsM true t ++ ']' :: rest))) =
          some (v, rest)) ∧
    (∀ k w t, v = .dictCons k w t →
      ∀ fuel sp rest, (∀ c ∈ sp, jsonWs c = true) → wfVal v = true → fu v ≤ fuel →
        parseF fuel .fields (sp ++ (dumpStr k ++ ':' :: ' ' :: (dumpsM false w ++
          (dumpsM true t ++ rbrace :: rest)))) = some (v, rest)) := by
  induction v with
  | null =>
    refine ⟨?_, ?_, ?_⟩
    · intro fuel rest hwf hfu hsafe
      obtain ⟨f, rfl⟩ : ∃ f, fuel = f + 1 :=
        Nat.exists_eq_succ_of_ne_zero (by simp [fu] at hfu; omega)
      show parseF (f + 1) .value ('n' :: 'u' :: 'l' :: 'l' :: rest) = _
      rw [parseF_value_cons f 'n' _ (by decide)]
      simp [valStep, List.isPrefixOf, lbrace_ne.1]
    · intro h t heq; cases heq
    · intro k w t heq; cases heq
  | bool b =>
    refine ⟨?_, ?_, ?_⟩
    · intro fuel rest hwf hfu hsafe
      obtain ⟨f, rfl⟩ : ∃ f, fuel = f + 1 :=
        Nat.exists_eq_succ_of_ne_zero (by simp [fu] at hfu; omega)
      cases b
      · show parseF (f + 1) .value ('f' :: 'a' :: 'l' :: 's' :: 'e' :: rest) = _
        rw [parseF_value_cons f 'f' _ (by decide)]
        simp [valStep, List.isPrefixOf, lbrace_ne.2.2.1]
      · show parseF (f + 1) .value ('t' :: 'r' :: 'u' :: 'e' :: rest) = _
        rw [parseF_value_cons f 't' _ (by decide)]
        simp [valStep, List.isPrefixOf, lbrace_ne.2.1]
    · intro h t heq; cases heq
    · intro k w t heq; cases heq
  | num n =>
    refine ⟨?_, ?_, ?_⟩
    · intro fuel rest hwf hfu hsafe
      obtain ⟨f, rfl⟩ : ∃ f, fuel = f + 1 :=
        Nat.exists_eq_succ_of_ne_zero (by simp [fu] at hfu; omega)
      cases n with
      | ofNat m =>
        obtain ⟨d, ds, heq⟩ : ∃ d ds, natRepr m = d :: ds := by
          cases hr : natRepr m with
          | nil => exact absurd hr (natRepr_ne_nil m)
          | cons d ds => exact ⟨d, ds, rfl⟩
        have hd : d.isDigit = true := natRepr_all_digits m d (by rw [heq]; simp)
        obtain ⟨hw, hrb, hcm, hlb, hlbr, hrbr, hq, hT, hF, hN, hM⟩ := isDigit_facts d hd
        have hread : readNat (d :: (ds ++ rest)) = some (m, rest) := by
          rw [show d :: (ds ++ rest) = natRepr m ++ rest from by rw [heq]; rfl]
          exact readNat_repr m rest hsafe
        show parseF (f + 1) .value (natRepr m ++ rest) = _
        rw [heq]
        simp only [List.cons_append]
        rw [parseF_value_cons f d _ hw]
        simp [valStep, hlb, hlbr, hq, hT, hF, hN, hM, hread]
      | negSucc m =>
        show parseF (f + 1) .value ('-' :: (natRepr (m + 1) ++ rest)) = _
        rw [parseF_value_cons f '-' _ (by decide)]
        simp [valStep, lbrace_ne.2.2.2.2.1, readNat_repr (m + 1) rest hsafe,
          Int.negSucc_eq]
    · intro h t heq; cases heq
    · intro k w t heq; cases heq
  | str s =>
    refine ⟨?_, ?_, ?_⟩
    · intro fuel rest hwf hfu hsafe
      obtain ⟨f, rfl⟩ : ∃ f, fuel = f + 1 :=
        Nat.exists_eq_succ_of_ne_zero (by simp [fu] at hfu; omega)
      have hs : wfStr s = true := by simpa [wfVal] using hwf
      show parseF (f + 1) .value ('"' :: ((s.map escChar).flatten ++ ['"'] ++ rest)) = _
      rw [parseF_value_cons f '"' _ (by decide)]
      simp [valStep, lbrace_ne.2.2.2.1, List.append_assoc,
        parseStrBody_round s hs rest]
    · intro h t heq; cases heq
    · intro k w t heq; cases heq
  | listNil =>
    refine ⟨?_, ?_, ?_⟩
    · intro fuel rest hwf hfu hsafe
      obtain ⟨f, rfl⟩ : ∃ f, fuel = f + 1 :=
        Nat.exists_eq_succ_of_ne_zero (by simp [fu] at hfu; omega)
      show parseF (f + 1) .value ('[' :: (']' :: rest)) = _
      rw [parseF_value_cons f '[' _ (by decide), valStep_lbracket,
        skipWs_not_ws ']' _ (by decide), arrOpen_cons, if_pos rfl]
    · intro h t heq; cases heq
    · intro k w t heq; cases heq
  | dictNil =>
    refine ⟨?_, ?_, ?_⟩
    · intro fuel rest hwf hfu hsafe
      obtain ⟨f, rfl⟩ : ∃ f, fuel = f + 1 :=
        Nat.exists_eq_succ_of_ne_zero (by simp [fu] at hfu; omega)
      show parseF (f + 1) .value (lbrace :: (rbrace :: rest)) = _
      rw [parseF_value_cons f lbrace _ (by decide), valStep_lbrace,
        skipWs_not_ws rbrace _ (by decide), objOpen_cons, if_pos rfl]
    · intro h t heq; cases heq
    · intro k w t heq; cases heq
  | listCons h t ihh iht =>
    have hLI : ∀ fuel sp rest, (∀ c ∈ sp, jsonWs c = true) →
        wfVal (.listCons h t) = true → fu (.listCons h t) ≤ fuel →
        parseF fuel .items (sp ++ (dumpsM false h ++ (dumpsM true t ++ ']' :: rest))) =
          some (.listCons h t, rest) := by
      intro fuel sp rest hsp hwf hfu
      have hwf3 : wfVal h = true ∧ isList t = true ∧ wfVal t = true := by
        simpa [wfVal, Bool.and_eq_true, and_assoc] using hwf
      obtain ⟨g, rfl⟩ : ∃ g, fuel = g + 1 :=
        Nat.exists_eq_succ_of_ne_zero (by simp [fu] at hfu; omega)
      have hfuh : fu h < g := by simp [fu] at hfu; omega
      have hval : parseF g .value
          (sp ++ (dumpsM false h ++ (dumpsM true t ++ ']' :: rest))) =
          some (h, dumpsM true t ++ ']' :: rest) := by
        rw [parseVal_ws g sp _ hsp]
        exact ihh.1 g _ hwf3.1 hfuh (safeRest_listTail t hwf3.2.1 rest)
      cases t with
      | listNil =>
        have hskip : skipWs (dumpsM true PyVal.listNil ++ ']' :: rest) = ']' :: rest := by
          show skipWs (']' :: rest) = _
          exact skipWs_not_ws ']' _ (by decide)
        rw [parseF_items_run g _ h _ ']' rest hval hskip]
        unfold itemsCont
        rw [if_neg (by decide), if_pos rfl]
      | listCons h2 t2 =>
        have hshape : dumpsM true (PyVal.listCons h2 t2) ++ ']' :: rest =
            ',' :: (' ' :: (dumpsM false h2 ++ (dumpsM true t2 ++ ']' :: rest))) := by
          simp [dumpsM, List.append_assoc]
        have hskip : skipWs (dumpsM true (PyVal.listCons h2 t2) ++ ']' :: rest) =
            ',' :: (' ' :: (dumpsM false h2 ++ (dumpsM true t2 ++ ']' :: rest))) := by
          rw [hshape]
          exact skipWs_not_ws ',' _ (by decide)
        rw [parseF_items_run g _ h _ ',' _ hval hskip]
        unfold itemsCont
        rw [if_pos rfl]
        have hrec := iht.2.1 h2 t2 rfl g [' '] rest
          (by intro c hc; simp at hc; subst hc; rfl)
          hwf3.2.2 (by simp [fu] at hfu ⊢; omega)
        simp only [List.cons_append, List.nil_append] at hrec
        rw [hrec]
      | _ => exact absurd hwf3.2.1 (by simp [isList])
    refine ⟨?_, ?_, ?_⟩
    · intro fuel rest hwf hfu hsafe
      obtain ⟨f, rfl⟩ : ∃ f, fuel = f + 1 :=
        Nat.exists_eq_succ_of_ne_zero (by simp [fu] at hfu; omega)
      have hgoalshape : pyDumps (PyVal.listCons h t) ++ rest =
          '[' :: (dumpsM false h ++ (dumpsM true t ++ ']' :: rest)) := by
        simp [pyDumps, dumpsM, List.append_assoc]
      rw [hgoalshape]
      rw [parseF_value_cons f '[' _ (by decide), valStep_lbracket]
      obtain ⟨d, ds, hdh, hdw, hdrb, _⟩ := dumps_head h
      have hshape : dumpsM false h ++ (dumpsM true t ++ ']' :: rest) =
          d :: (ds ++ (dumpsM true t ++ ']' :: rest)) := by
        rw [show dumpsM false h = pyDumps h from rfl, hdh]
        simp
      rw [hshape, skipWs_not_ws d _ hdw, arrOpen_cons, if_neg hdrb, ← hshape]
      have := hLI f [] rest (by intro c hc; simp at hc) hwf (by omega)
      simpa using this
    · intro h' t' heq fuel sp rest hsp hwf hfu
      injection heq with e1 e2
      subst e1; subst e2
      exact hLI fuel sp rest hsp hwf hfu
    · intro k w t' heq; cases heq
  | dictCons k w t ihw iht =>
    have hLF : ∀ fuel sp rest, (∀ c ∈ sp, jsonWs c = true) →
        wfVal (.dictCons k w t) = true → fu (.dictCons k w t) ≤ fuel →
        parseF fuel .fields (sp ++ (dumpStr k ++ ':' :: ' ' :: (dumpsM false w ++
          (dumpsM true t ++ rbrace :: rest)))) = some (.dictCons k w t, rest) := by
      intro fuel sp rest hsp hwf hfu
      have hwf3 : wfStr k = true ∧ wfVal w = true ∧ isDict t = true ∧ wfVal t = true := by
        simpa [wfVal, Bool.and_eq_true, and_assoc] using hwf
      obtain ⟨g, rfl⟩ : ∃ g, fuel = g + 1 :=
        Nat.exists_eq_succ_of_ne_zero (by simp [fu] at hfu; omega)
      have hfuw : fu w < g := by simp [fu] at hfu; omega
      rw [parseFields_ws (g + 1) sp _ hsp]
      have hentry : dumpStr k ++ ':' :: ' ' :: (dumpsM false w ++
          (dumpsM true t ++ rbrace :: rest)) =
          '"' :: ((k.map escChar).flatten ++ '"' :: (':' :: ' ' :: (dumpsM false w ++
            (dumpsM true t ++ rbrace :: rest)))) := by
        simp [dumpStr, List.append_assoc]
      rw [hentry]
      have h1 := parseStrBody_round k hwf3.1
        (':' :: ' ' :: (dumpsM false w ++ (dumpsM true t ++ rbrace :: rest)))
      have h2 : skipWs (':' :: ' ' :: (dumpsM false w ++
          (dumpsM true t ++ rbrace :: rest))) =
          ':' :: (' ' :: (dumpsM false w ++ (dumpsM true t ++ rbrace :: rest))) :=
        skipWs_not_ws ':' _ (by decide)
      have h3 : parseF g .value (' ' :: (dumpsM false w ++
          (dumpsM true t ++ rbrace :: rest))) =
          some (w, dumpsM true t ++ rbrace :: rest) := by
        rw [show (' ' :: (dumpsM false w ++ (dumpsM true t ++ rbrace :: rest))) =
          [' '] ++ (dumpsM false w ++ (dumpsM true t ++ rbrace :: rest)) from rfl]
        rw [parseVal_ws g [' '] _ (by intro c hc; simp at hc; subst hc; rfl)]
        exact ihw.1 g _ hwf3.2.1 hfuw (safeRest_dictTail t hwf3.2.2.1 rest)
      cases t with
      | dictNil =>
        have h4 : skipWs (dumpsM true PyVal.dictNil ++ rbrace :: rest) =
            rbrace :: rest := by
          show skipWs (rbrace :: rest) = _
          exact skipWs_not_ws rbrace _ (by decide)
        rw [parseF_fields_run g _ k _ _ w _ rbrace rest h1 h2 h3 h4]
        unfold fieldsCont
        rw [if_neg (by decide), if_pos rfl]
      | dictCons k2 w2 t2 =>
        have hshape : dumpsM true (PyVal.dictCons k2 w2 t2) ++ rbrace :: rest =
            ',' :: (' ' :: (dumpStr k2 ++ ':' :: ' ' :: (dumpsM false w2 ++
              (dumpsM true t2 ++ rbrace :: rest)))) := by
          simp [dumpsM, List.append_assoc]
        have h4 : skipWs (dumpsM true (PyVal.dictCons k2 w2 t2) ++ rbrace :: rest) =
            ',' :: (' ' :: (dumpStr k2 ++ ':' :: ' ' :: (dumpsM false w2 ++
              (dumpsM true t2 ++ rbrace :: rest)))) := by
          rw [hshape]
          exact skipWs_not_ws ',' _ (by decide)
        rw [parseF_fields_run g _ k _ _ w _ ',' _ h1 h2 h3 h4]
        unfold fieldsCont
        rw [if_pos rfl]
        have hrec := iht.2.2 k2 w2 t2 rfl g [' '] rest
          (by intro c hc; simp at hc; subst hc; rfl)
          hwf3.2.2.2 (by simp [fu] at hfu ⊢; omega)
        simp only [List.cons_append, List.nil_append] at hrec
        rw [hrec]
      | _ => exact absurd hwf3.2.2.1 (by simp [isDict])
    refine ⟨?_, ?_, ?_⟩
    · intro fuel rest hwf hfu hsafe
      obtain ⟨f, rfl⟩ : ∃ f, fuel = f + 1 :=
        Nat.exists_eq_succ_of_ne_zero (by simp [fu] at hfu; omega)
      have hgoalshape : pyDumps (PyVal.dictCons k w t) ++ rest =
          lbrace :: ('"' :: ((k.map escChar).flatten ++ '"' :: (':' :: ' ' ::
            (dumpsM false w ++ (dumpsM true t ++ rbrace :: rest))))) := by
        simp [pyDumps, dumpsM, dumpStr, List.append_assoc]
      rw [hgoalshape]
      rw [parseF_value_cons f lbrace _ (by decide), valStep_lbrace,
        skipWs_not_ws '"' _ (by decide), objOpen_cons, if_neg (by decide)]
      have := hLF f [] rest (by intro c hc; simp at hc) hwf (by omega)
      rw [show ([] : List Char) ++ (dumpStr k ++ ':' :: ' ' :: (dumpsM false w ++
        (dumpsM true t ++ rbrace :: rest))) = dumpStr k ++ ':' :: ' ' ::
        (dumpsM false w ++ (dumpsM true t ++ rbrace :: rest)) from by simp] at this
      rw [show dumpStr k ++ ':' :: ' ' :: (dumpsM false w ++
        (dumpsM true t ++ rbrace :: rest)) =
        '"' :: ((k.map escChar).flatten ++ '"' :: (':' :: ' ' :: (dumpsM false w ++
          (dumpsM true t ++ rbrace :: rest)))) from by
        simp [dumpStr, List.append_assoc]] at this
      exact this
    · intro h' t' heq; cases heq
    · intro k' w' t' heq fuel sp rest hsp hwf hfu
      injection heq with e1 e2 e3
      subst e1; subst e2; subst e3
      exact hLF fuel sp rest hsp hwf hfu

/-! ## `extract_json_from_text` (src/utils/ai_parser.py)

The regex `r'```(?:json)?\s*([\s\S]*?)\s*```'` searched by `re.search` is
modelled directly: the leftmost position where three backticks start and a
later closing triple exists wins; an optional `json` tag is consumed; the
group is the text up to the first closing triple, stripped of surrounding
whitespace (the two greedy `\s*` and the lazy group produce exactly
that). -/

/-- Three backticks. -/
def tripleTick : List Char := "```".data

/-- Index of the first occurrence of three backticks, if any. -/
def findClose : List Char → Option Nat
  | [] => none
  | c :: r =>
    if tripleTick.isPrefixOf (c :: r) then some 0
    else (findClose r).map (· + 1)

/-- Scan for the leftmost fenced block with a closing fence; fuelled scan
advancing one character per step (Python `re.search` start positions). -/
def mdSearchF : Nat → List Char → Option (List Char)
  | 0, _ => none
  | fuel + 1, s =>
    match s with
    | [] => none
    | c :: r =>
      if tripleTick.isPrefixOf (c :: r) then
        let rest := r.drop 2
        let rest2 := if "json".data.isPrefixOf rest then rest.drop 4 else rest
        match findClose rest2 with
        | some i => some (pyStrip (rest2.take i))
        | none => mdSearchF fuel r
      else mdSearchF fuel r

/-- The group captured by the fenced-block regex, if it matches. -/
def mdInner (t : List Char) : Option (List Char) :=
  mdSearchF (t.length + 1) t

/-- Python `text.find(ch)`: first index or `-1`. -/
def pyFind (ch : Char) (s : List Char) : Int :=
  match s.findIdx? (fun c => c = ch) with
  | some i => (i : Int)
  | none => -1

/-- Python `text.rfind(ch)`: last index or `-1`. -/
def pyRFind (ch : Char) (s : List Char) : Int :=
  match s.reverse.findIdx? (fun c => c = ch) with
  | some j => (s.length : Int) - 1 - (j : Int)
  | none => -1

/-- Python `text[a:b]` for the non-negative bounds used here. -/
def pySlice (s : List Char) (a b : Int) : List Char :=
  (s.take b.toNat).drop a.toNat

/-- Step 3 of `extract_json_from_text`: locate the outermost bracketed
substring, with Python `-1` sentinels and the exact comparison chain of
the source. -/
def substringCandidate (t : List Char) : Option (List Char) :=
  let sl := pyFind '[' t
  let el := pyRFind ']' t
  let so := pyFind lbrace t
  let eo := pyRFind rbrace t
  if sl ≠ -1 ∧ el ≠ -1 ∧ el > sl then
    if so ≠ -1 then
      if sl < so ∧ el > eo then some (pySlice t sl (el + 1))
      else if so < sl then some (pySlice t so (eo + 1))
      else some (pySlice t sl (el + 1))
    else some (pySlice t sl (el + 1))
  else if so ≠ -1 ∧ eo ≠ -1 ∧ eo > so then some (pySlice t so (eo + 1))
  else none

/-- One regex substitution `re.sub(r',\s*X', 'X', s)` for a closing
character `X`: scanning left to right, a comma followed by whitespace and
`X` collapses to `X`, and scanning resumes after it.  Fuelled: each step
consumes at least one input character. -/
def fixCommaF (close : Char) : Nat → List Char → List Char
  | 0, s => s
  | _ + 1, [] => []
  | fuel + 1, c :: rest =>
    if c = ',' then
      match rest.dropWhile pyWs with
      | d :: w2 =>
        if d = close then close :: fixCommaF close fuel w2
        else c :: fixCommaF close fuel rest
      | [] => c :: fixCommaF close fuel rest
    else c :: fixCommaF close fuel rest

/-- `re.sub(r',\s*X', 'X', s)`. -/
def fixComma (close : Char) (s : List Char) : List Char :=
  fixCommaF close s.length s

/-- The error kinds of `extract_json_from_text`, one per distinct message
string of the source. -/
inductive ParseErr where
  | emptyResponse
  | invalidType
  | markdownBlockDecodeError
  | substringDecodeError
  | noValidJSONFound
deriving DecidableEq

instance instDecEqExcept {ε α : Type} [DecidableEq ε] [DecidableEq α] :
    DecidableEq (Except ε α) := fun a b =>
  match a, b with
  | .error e, .error f =>
    if h : e = f then .isTrue (by rw [h]) else .isFalse (fun he => h (by injection he))
  | .error _, .ok _ => .isFalse (fun he => by injection he)
  | .ok _, .error _ => .isFalse (fun he => by injection he)
  | .ok x, .ok y =>
    if h : x = y then .isTrue (by rw [h]) else .isFalse (fun he => h (by injection he))

/-- `extract_json_from_text(text)` (src/utils/ai_parser.py): falsy input
fails `EmptyResponse`; an already-structured list or dict passes through;
a non-string fails with the invalid-type message; otherwise the stripped
text is tried against, in order, the fenced markdown block (an unparsable
block fails `MarkdownBlockDecodeError` with no fallthrough), whole-text
JSON, and the outermost bracketed substring with trailing commas fixed;
otherwise `NoValidJSONFound`. -/
def extract_json_from_text (input : PyVal) : Except ParseErr PyVal :=
  if ¬ truthy input then .error .emptyResponse
  else
    match input with
    | .listNil => .ok input
    | .listCons _ _ => .ok input
    | .dictNil => .ok input
    | .dictCons _ _ _ => .ok input
    | .str s =>
      let t := pyStrip s
      match mdInner t with
      | some inner =>
        match pyJsonLoads inner with
        | some v => .ok v
        | none => .error .markdownBlockDecodeError
      | none =>
        match pyJsonLoads t with
        | some v => .ok v
        | none =>
          match substringCandidate t with
          | some cand =>
            if cand ≠ [] then
              match pyJsonLoads (fixComma rbrace (fixComma ']' cand)) with
              | some v => .ok v
              | none => .error .substringDecodeError
            else .error .noValidJSONFound
          | none => .error .noValidJSONFound
    | _ => .error .invalidType

/-- The §8 scenario response: prose, then a `json`-tagged fenced block
holding a one-object array. -/
def c6Text : List Char :=
  "Here is the data:\n```json\n[".data ++ [lbrace] ++
    ('"' :: "title".data ++ ['"', ':']) ++ ('"' :: "X".data ++ ['"']) ++
    [rbrace] ++ "]\n```".data

/-- The inner text of the fenced block of `c6Text`. -/
def c6Inner : List Char :=
  "[".data ++ [lbrace] ++ ('"' :: "title".data ++ ['"', ':']) ++
    ('"' :: "X".data ++ ['"']) ++ [rbrace] ++ "]".data

theorem pyStrip_nil_of_all_ws (s : List Char) (h : ∀ c ∈ s, pyWs c = true) :
    pyStrip s = [] := by
  have h1 : s.dropWhile pyWs = [] := List.dropWhile_eq_nil_iff.mpr h
  simp [pyStrip, h1]

/-- **C6.**  When the stripped response text contains a fenced code block
(the regex matches, capturing `inner`), `extract_json_from_text` returns
the parse of `inner` when it parses, and fails with the
markdown-block-decode error kind when it does not — regardless of whether
any surrounding text or bracketed substring would parse.  Concretely, the
§8 scenario response parses to the one-object array from inside the
fence, and a response whose fence content is junk fails with the
markdown kind even though the surrounding text holds parseable JSON. -/
theorem C6_markdown_block_priority (s inner : List Char)
    (h : mdInner (pyStrip s) = some inner) :
    (∀ v, pyJsonLoads inner = some v → extract_json_from_text (.str s) = .ok v) ∧
    (pyJsonLoads inner = none →
      extract_json_from_text (.str s) = .error .markdownBlockDecodeError) ∧
    extract_json_from_text (.str c6Text) =
      .ok (ofList [.dictCons "title".data (.str "X".data) .dictNil]) ∧
    extract_json_from_text (.str "[1,2]\n```notjson```".data) =
      .error .markdownBlockDecodeError := by
  have hs : s ≠ [] := by
    intro he; subst he
    rw [show pyStrip [] = [] from rfl] at h
    rw [show mdInner ([] : List Char) = none from by decide] at h
    exact Option.noConfusion h
  have htru : truthy (.str s) = true := by simp [truthy, hs]
  refine ⟨?_, ?_, by decide, by decide⟩
  · intro v hv
    simp [extract_json_from_text, htru, h, hv]
  · intro hv
    simp [extract_json_from_text, htru, h, hv]

/-- Witness for `C6_markdown_block_priority` at the concrete scenario
input. -/
theorem C6_markdown_block_priority_witness :
    extract_json_from_text (.str c6Text) =
      .ok (ofList [.dictCons "title".data (.str "X".data) .dictNil]) :=
  (C6_markdown_block_priority c6Text c6Inner (by decide)).1
    (ofList [.dictCons "title".data (.str "X".data) .dictNil]) (by decide)

/-- **C7, counterexample.**  A whitespace-only response is truthy in
Python, so it passes the `if not text` check, strips to the empty string,
and falls through every recovery strategy: the failure kind is
`NoValidJSONFound`, not `EmptyResponse` as the claim states. -/
theorem C7_whitespace_counterexample :
    extract_json_from_text (.str [' ']) = .error .noValidJSONFound ∧
    ParseErr.noValidJSONFound ≠ ParseErr.emptyResponse := by
  constructor
  · decide
  · decide

/-- **C7, amended.**  The empty string (and every falsy input) fails with
the `EmptyResponse` kind, but a non-empty whitespace-only string is truthy,
strips to nothing, and fails with the `NoValidJSONFound` kind instead. -/
theorem C7_empty_vs_whitespace :
    extract_json_from_text (.str []) = .error .emptyResponse ∧
    (∀ s : List Char, s ≠ [] → (∀ c ∈ s, pyWs c = true) →
      extract_json_from_text (.str s) = .error .noValidJSONFound) := by
  constructor
  · decide
  · intro s hne hws
    have htru : truthy (.str s) = true := by simp [truthy, hne]
    have ht : pyStrip s = [] := pyStrip_nil_of_all_ws s hws
    simp [extract_json_from_text, htru, ht,
      show mdInner ([] : List Char) = none from by decide,
      show pyJsonLoads ([] : List Char) = none from by decide,
      show substringCandidate ([] : List Char) = none from by decide]

/-- Witness for `C7_empty_vs_whitespace` at the empty string and a
tab-only string. -/
theorem C7_empty_vs_whitespace_witness :
    extract_json_from_text (.str []) = .error .emptyResponse ∧
    extract_json_from_text (.str ['\t']) = .error .noValidJSONFound :=
  ⟨C7_empty_vs_whitespace.1,
    C7_empty_vs_whitespace.2 ['\t'] (by decide) (by decide)⟩

/-! ## `clean_and_deduplicate_items` (src/utils/ai_parser.py)

The nondeterministic `str(uuid.uuid4())[:8]` is modelled by an arbitrary
stream `uuid : Nat → List Char` indexed by the loop position; the result
is `none` exactly when Python would raise (a truthy non-string `title`
handed to `re.sub`). -/

/-- The dictionary key `id`. -/
def idKey : List Char := "id".data

/-- The dictionary key `title`. -/
def titleKey : List Char := "title".data

/-- A dict whose tail chain is dict-shaped all the way down (every value
Python ever builds). -/
def isDictChain : PyVal → Bool
  | .dictNil => true
  | .dictCons _ _ t => isDictChain t
  | _ => false

/-- Python `str(v)` for the scalar values used as ids. -/
def pyStrOf : PyVal → List Char
  | .str s => s
  | .num n => intRepr n
  | .bool b => if b then "True".data else "False".data
  | .null => "None".data
  | _ => []

/-- A character kept by `re.sub(r'[^\w\s-]', '', title)`: word
(ASCII alphanumeric or underscore in this model), whitespace, or
hyphen. -/
def slugKeep (c : Char) : Bool :=
  c.isAlphanum || c = '_' || pyWs c || c = '-'

/-- The slug derivation
`re.sub(r'[^\w\s-]', '', title).strip().lower().replace(' ', '-')[:30]`. -/
def slug (title : List Char) : List Char :=
  ((((title.filter slugKeep) |> pyStrip).map Char.toLower).map
    (fun c => if c = ' ' then '-' else c)).take 30

/-- Insertion into the Python set of seen ids. -/
def setInsert (v : PyVal) (s : List PyVal) : List PyVal :=
  if v ∈ s then s else v :: s

/-- `{item.get('id') for item in existing_data if item.get('id')}`. -/
def seedIds (existing : List PyVal) : List PyVal :=
  existing.foldl (fun s it =>
    match pyGet it idKey with
    | some v => if truthy v then setInsert v s else s
    | none => s) []

/-- The candidate `f"{base_id}-{counter}"`. -/
def candId (base : List Char) (counter : Nat) : List Char :=
  base ++ '-' :: natRepr counter

/-- The collision `while` loop: try `base-1`, `base-2`, … until a
candidate is outside the set.  `fuel = |set| + 1` always suffices. -/
def freshIdF (base : List Char) (s : List PyVal) : Nat → Nat → List Char
  | 0, counter => candId base counter
  | fuel + 1, counter =>
    if PyVal.str (candId base counter) ∈ s then freshIdF base s fuel (counter + 1)
    else candId base counter

/-- The id-assignment block: derive a slug from a truthy `title` if
present (none models the `TypeError` Python raises on a truthy non-string
title), otherwise use the uuid token. -/
def ensureIdAssign (uuid : List Char) (item : PyVal) : Option PyVal :=
  let title := (pyGet item titleKey).getD (.str [])
  if truthy title then
    match title with
    | .str ts => some (pySet item idKey (.str (slug ts)))
    | _ => none
  else some (pySet item idKey (.str uuid))

/-- `if not item.get('id'): …` — keep a truthy id, otherwise assign. -/
def ensureId (uuid : List Char) (item : PyVal) : Option PyVal :=
  match pyGet item idKey with
  | some v => if truthy v then some item else ensureIdAssign uuid item
  | none => ensureIdAssign uuid item

/-- One loop iteration over a dict item: ensure an id, repair a collision
with the running set, add the final id to the set. -/
def cleanStep (uuid : List Char) (s : List PyVal) (item : PyVal) :
    Option (PyVal × List PyVal) :=
  match ensureId uuid item with
  | none => none
  | some item1 =>
    match pyGet item1 idKey with
    | some v =>
      if v ∈ s then
        let final := PyVal.str (freshIdF (pyStrOf v) s (s.length + 1) 1)
        some (pySet item1 idKey final, setInsert final s)
      else some (item1, setInsert v s)
    | none => none

/-- The `for item in items` loop; non-dict items are skipped
(`continue`). -/
def cleanItems (uuid : Nat → List Char) : List PyVal → Nat → List PyVal →
    Option (List PyVal)
  | [], _, _ => some []
  | item :: rest, idx, s =>
    if isDict item then
      match cleanStep (uuid idx) s item with
      | none => none
      | some (item2, s2) =>
        match cleanItems uuid rest (idx + 1) s2 with
        | none => none
        | some out => some (item2 :: out)
    else cleanItems uuid rest (idx + 1) s

/-- `clean_and_deduplicate_items(items, existing_data)`. -/
def clean_and_deduplicate_items (uuid : Nat → List Char)
    (items existing : List PyVal) : Option (List PyVal) :=
  cleanItems uuid items 0 (seedIds existing)


/-- Values whose `title`, if present and truthy, is a string (so the slug
derivation does not raise). -/
def wfTitleVal : Option PyVal → Bool
  | none => true
  | some (.str _) => true
  | some v => !(truthy v)

/-- An item the deduplication loop processes without raising: a
well-shaped dict whose truthy title, if any, is a string. -/
def wfItem (item : PyVal) : Bool :=
  isDictChain item && wfTitleVal (pyGet item titleKey)

theorem mem_setInsert (v w : PyVal) (s : List PyVal) :
    v ∈ setInsert w s ↔ v = w ∨ v ∈ s := by
  unfold setInsert
  by_cases h : w ∈ s
  · simp only [if_pos h]
    constructor
    · intro hv; exact Or.inr hv
    · intro hv; rcases hv with rfl | hv
      · exact h
      · exact hv
  · simp [if_neg h]

theorem mem_setInsert_self (w : PyVal) (s : List PyVal) : w ∈ setInsert w s :=
  (mem_setInsert w w s).mpr (Or.inl rfl)

theorem subset_setInsert (w : PyVal) (s : List PyVal) :
    ∀ x ∈ s, x ∈ setInsert w s := fun x hx =>
  (mem_setInsert x w s).mpr (Or.inr hx)

theorem isDict_of_chain (item : PyVal) (h : isDictChain item = true) :
    isDict item = true := by
  cases item <;> simp_all [isDictChain, isDict]

theorem pyGet_pySet_self (item : PyVal) (k : List Char) (v : PyVal)
    (h : isDictChain item = true) :
    pyGet (pySet item k v) k = some v := by
  induction item with
  | dictNil => simp [pySet, pyGet]
  | dictCons k0 w t _ iht =>
    by_cases hk : k0 = k
    · subst hk; simp [pySet, pyGet]
    · simp only [pySet, if_neg hk, pyGet]
      exact iht (by simpa [isDictChain] using h)
  | _ => simp [isDictChain] at h

theorem pyGet_pySet_other (item : PyVal) (k k' : List Char) (v : PyVal)
    (h : k ≠ k') :
    pyGet (pySet item k v) k' = pyGet item k' := by
  induction item with
  | dictNil => simp [pySet, pyGet, h]
  | dictCons k0 w t _ iht =>
    by_cases hk : k0 = k
    · subst hk
      simp only [pySet, if_pos rfl, pyGet]
      rw [if_neg h, if_neg h]
    · simp only [pySet, if_neg hk, pyGet]
      by_cases hk' : k0 = k'
      · rw [if_pos hk', if_pos hk']
      · rw [if_neg hk', if_neg hk']
        exact iht
  | null => rfl
  | bool b => rfl
  | num n => rfl
  | str s => rfl
  | listNil => rfl
  | listCons a b _ _ => rfl

theorem isDictChain_pySet (item : PyVal) (k : List Char) (v : PyVal)
    (h : isDictChain item = true) :
    isDictChain (pySet item k v) = true := by
  induction item with
  | dictNil => simp [pySet, isDictChain]
  | dictCons k0 w t _ iht =>
    by_cases hk : k0 = k
    · subst hk; simpa [pySet, isDictChain] using h
    · simp only [pySet, if_neg hk, isDictChain]
      exact iht (by simpa [isDictChain] using h)
  | _ => simp [isDictChain] at h

theorem natRepr_injective (a b : Nat) (h : natRepr a = natRepr b) : a = b := by
  have ha := readNat_repr a [] (by intro c hc; simp at hc)
  have hb := readNat_repr b [] (by intro c hc; simp at hc)
  rw [List.append_nil] at ha hb
  rw [h, hb] at ha
  injection ha with h1
  injection h1 with h2 h3
  exact h2.symm

theorem candId_injective (base : List Char) (a b : Nat)
    (h : candId base a = candId base b) : a = b := by
  unfold candId at h
  have := List.append_cancel_left h
  injection this with _ h2
  exact natRepr_injective a b h2

theorem freshIdF_spec (base : List Char) (s : List PyVal) :
    ∀ fuel counter,
      (∃ j < fuel, PyVal.str (candId base (counter + j)) ∉ s) →
      PyVal.str (freshIdF base s fuel counter) ∉ s := by
  intro fuel
  induction fuel with
  | zero =>
    intro counter h
    obtain ⟨j, hj, _⟩ := h
    omega
  | succ f ih =>
    intro counter h
    unfold freshIdF
    by_cases hc : PyVal.str (candId base counter) ∈ s
    · rw [if_pos hc]
      apply ih
      obtain ⟨j, hj, hnot⟩ := h
      cases j with
      | zero => exact absurd hc (by simpa using hnot)
      | succ j' =>
        refine ⟨j', by omega, ?_⟩
        have : counter + 1 + j' = counter + (j' + 1) := by omega
        rw [this]
        exact hnot
    · rw [if_neg hc]
      exact hc

theorem freshIdF_not_mem (base : List Char) (s : List PyVal) :
    PyVal.str (freshIdF base s (s.length + 1) 1) ∉ s := by
  apply freshIdF_spec
  by_contra hcon
  push_neg at hcon
  have hall : ∀ j ≤ s.length, PyVal.str (candId base (1 + j)) ∈ s := by
    intro j hj
    exact hcon j (by omega)
  have hinj : Function.Injective
      (fun j : Fin (s.length + 1) => PyVal.str (candId base (1 + (j : Nat)))) := by
    intro a b hab
    simp only [PyVal.str.injEq] at hab
    have := candId_injective base _ _ hab
    exact Fin.ext (by omega)
  have hsub : (Finset.univ.image
      (fun j : Fin (s.length + 1) => PyVal.str (candId base (1 + (j : Nat))))) ⊆
      s.toFinset := by
    intro x hx
    obtain ⟨j, _, rfl⟩ := Finset.mem_image.mp hx
    exact List.mem_toFinset.mpr (hall j (by omega))
  have hcard := Finset.card_le_card hsub
  rw [Finset.card_image_of_injective _ hinj, Finset.card_univ, Fintype.card_fin] at hcard
  have := List.toFinset_card_le s
  omega

theorem seedIds_mem (existing : List PyVal) (v : PyVal) :
    v ∈ seedIds existing ↔
      ∃ e ∈ existing, pyGet e idKey = some v ∧ truthy v = true := by
  have haux : ∀ (l : List PyVal) (acc : List PyVal),
      v ∈ l.foldl (fun s it =>
        match pyGet it idKey with
        | some w => if truthy w then setInsert w s else s
        | none => s) acc ↔
      v ∈ acc ∨ ∃ e ∈ l, pyGet e idKey = some v ∧ truthy v = true := by
    intro l
    induction l with
    | nil => intro acc; simp
    | cons e l' ih =>
      intro acc
      simp only [List.foldl_cons]
      rw [ih]
      cases hg : pyGet e idKey with
      | none => simp [hg]
      | some w =>
        by_cases ht : truthy w
        · simp only [hg, if_pos ht, mem_setInsert]
          constructor
          · intro hh
            rcases hh with (rfl | hv) | hh
            · exact Or.inr ⟨e, by simp, hg, ht⟩
            · exact Or.inl hv
            · obtain ⟨e', he', hge, hte⟩ := hh
              exact Or.inr ⟨e', by simp [he'], hge, hte⟩
          · intro hh
            rcases hh with hv | ⟨e', he', hge, hte⟩
            · exact Or.inl (Or.inr hv)
            · rcases List.mem_cons.mp he' with rfl | he'
              · rw [hge] at hg
                injection hg with hg
                exact Or.inl (Or.inl hg)
              · exact Or.inr ⟨e', he', hge, hte⟩
        · simp only [hg, if_neg ht]
          constructor
          · intro hh
            rcases hh with hv | ⟨e', he', hge, hte⟩
            · exact Or.inl hv
            · exact Or.inr ⟨e', by simp [he'], hge, hte⟩
          · intro hh
            rcases hh with hv | ⟨e', he', hge, hte⟩
            · exact Or.inl hv
            · rcases List.mem_cons.mp he' with rfl | he'
              · rw [hge] at hg
                injection hg with hg
                subst hg
                exact absurd hte ht
              · exact Or.inr ⟨e', he', hge, hte⟩
  rw [show seedIds existing = existing.foldl (fun s it =>
    match pyGet it idKey with
    | some w => if truthy w then setInsert w s else s
    | none => s) [] from rfl]
  rw [haux existing []]
  simp


theorem ensureIdAssign_spec (uuid : List Char) (item : PyVal)
    (hchain : isDictChain item = true)
    (htitle : wfTitleVal (pyGet item titleKey) = true) :
    ∃ item1, ensureIdAssign uuid item = some item1 ∧
      isDictChain item1 = true ∧ (∃ v1, pyGet item1 idKey = some v1) ∧
      ∀ key, key ≠ idKey → pyGet item1 key = pyGet item key := by
  unfold ensureIdAssign
  cases hg : pyGet item titleKey with
  | none =>
    simp only [hg, Option.getD]
    rw [if_neg (by simp [truthy])]
    exact ⟨_, rfl, isDictChain_pySet _ _ _ hchain,
      ⟨_, pyGet_pySet_self _ _ _ hchain⟩,
      fun key hk => pyGet_pySet_other _ _ _ _ (fun he => hk he.symm)⟩
  | some w =>
    rw [hg] at htitle
    by_cases ht : truthy w
    · cases w with
      | str ts =>
        simp only [hg, Option.getD]
        rw [if_pos (by simpa [truthy] using ht)]
        exact ⟨_, rfl, isDictChain_pySet _ _ _ hchain,
          ⟨_, pyGet_pySet_self _ _ _ hchain⟩,
          fun key hk => pyGet_pySet_other _ _ _ _ (fun he => hk he.symm)⟩
      | null => exact absurd ht (by simp [truthy])
      | bool b =>
        simp only [wfTitleVal] at htitle
        rw [ht] at htitle
        exact absurd htitle (by decide)
      | num n =>
        simp only [wfTitleVal] at htitle
        rw [ht] at htitle
        exact absurd htitle (by decide)
      | listNil => exact absurd ht (by simp [truthy])
      | listCons a b =>
        simp only [wfTitleVal] at htitle
        rw [ht] at htitle
        exact absurd htitle (by decide)
      | dictNil => exact absurd ht (by simp [truthy])
      | dictCons k v t =>
        simp only [wfTitleVal] at htitle
        rw [ht] at htitle
        exact absurd htitle (by decide)
    · simp only [hg, Option.getD]
      rw [if_neg ht]
      exact ⟨_, rfl, isDictChain_pySet _ _ _ hchain,
        ⟨_, pyGet_pySet_self _ _ _ hchain⟩,
        fun key hk => pyGet_pySet_other _ _ _ _ (fun he => hk he.symm)⟩

theorem ensureId_spec (uuid : List Char) (item : PyVal)
    (hchain : isDictChain item = true)
    (htitle : wfTitleVal (pyGet item titleKey) = true) :
    ∃ item1, ensureId uuid item = some item1 ∧
      isDictChain item1 = true ∧ (∃ v1, pyGet item1 idKey = some v1) ∧
      ∀ key, key ≠ idKey → pyGet item1 key = pyGet item key := by
  unfold ensureId
  cases hg : pyGet item idKey with
  | none => exact ensureIdAssign_spec uuid item hchain htitle
  | some v =>
    by_cases ht : truthy v
    · refine ⟨item, ?_, hchain, ⟨v, hg⟩, fun _ _ => rfl⟩
      show (if truthy v = true then some item else ensureIdAssign uuid item) = some item
      rw [if_pos ht]
    · obtain ⟨item1, h1, h2, h3, h4⟩ := ensureIdAssign_spec uuid item hchain htitle
      refine ⟨item1, ?_, h2, h3, h4⟩
      show (if truthy v = true then some item else ensureIdAssign uuid item) = some item1
      rw [if_neg ht]
      exact h1

theorem cleanStep_eq (uuid : List Char) (s : List PyVal) (item item1 : PyVal)
    (hens : ensureId uuid item = some item1) :
    cleanStep uuid s item =
      match pyGet item1 idKey with
      | some v =>
        if v ∈ s then
          some (pySet item1 idKey
              (PyVal.str (freshIdF (pyStrOf v) s (s.length + 1) 1)),
            setInsert (PyVal.str (freshIdF (pyStrOf v) s (s.length + 1) 1)) s)
        else some (item1, setInsert v s)
      | none => none := by
  unfold cleanStep
  rw [hens]

theorem cleanStep_spec (uuid : List Char) (s : List PyVal) (item : PyVal)
    (hwf : wfItem item = true) :
    ∃ item2 final, cleanStep uuid s item = some (item2, setInsert final s) ∧
      pyGet item2 idKey = some final ∧ final ∉ s ∧
      ∀ key, key ≠ idKey → pyGet item2 key = pyGet item key := by
  have hparts : isDictChain item = true ∧ wfTitleVal (pyGet item titleKey) = true := by
    simpa [wfItem, Bool.and_eq_true] using hwf
  obtain ⟨item1, hens, hchain1, ⟨v1, hid1⟩, hframe1⟩ :=
    ensureId_spec uuid item hparts.1 hparts.2
  by_cases hv : v1 ∈ s
  · have hstep : cleanStep uuid s item =
        some (pySet item1 idKey
            (PyVal.str (freshIdF (pyStrOf v1) s (s.length + 1) 1)),
          setInsert (PyVal.str (freshIdF (pyStrOf v1) s (s.length + 1) 1)) s) := by
      rw [cleanStep_eq uuid s item item1 hens, hid1]
      show (if v1 ∈ s then _ else some (item1, setInsert v1 s)) = _
      rw [if_pos hv]
    refine ⟨_, _, hstep, pyGet_pySet_self _ _ _ hchain1,
      freshIdF_not_mem (pyStrOf v1) s, ?_⟩
    intro key hk
    rw [pyGet_pySet_other _ _ _ _ (fun he => hk he.symm)]
    exact hframe1 key hk
  · have hstep : cleanStep uuid s item = some (item1, setInsert v1 s) := by
      rw [cleanStep_eq uuid s item item1 hens, hid1]
      show (if v1 ∈ s then _ else some (item1, setInsert v1 s)) = _
      rw [if_neg hv]
    exact ⟨item1, v1, hstep, hid1, hv, hframe1⟩

theorem cleanItems_cons_dict (uuid : Nat → List Char) (idx : Nat)
    (s : List PyVal) (item : PyVal) (rest : List PyVal)
    (hd : isDict item = true) :
    cleanItems uuid (item :: rest) idx s =
      match cleanStep (uuid idx) s item with
      | none => none
      | some (item2, s2) =>
        match cleanItems uuid rest (idx + 1) s2 with
        | none => none
        | some out => some (item2 :: out) := by
  conv_lhs => unfold cleanItems
  rw [if_pos hd]

theorem cleanItems_master (uuid : Nat → List Char) :
    ∀ (items : List PyVal) (idx : Nat) (s : List PyVal),
      (∀ it ∈ items, wfItem it = true) →
      ∃ out, cleanItems uuid items idx s = some out ∧
        out.length = items.length ∧
        (∀ it ∈ out, ∃ v, pyGet it idKey = some v ∧ v ∉ s) ∧
        (out.map (fun it => pyGet it idKey)).Pairwise (· ≠ ·) ∧
        List.Forall₂ (fun a b => ∀ key, key ≠ idKey →
          pyGet a key = pyGet b key) out items := by
  intro items
  induction items with
  | nil =>
    intro idx s _
    exact ⟨[], rfl, rfl, by simp, by simp, List.Forall₂.nil⟩
  | cons item rest ih =>
    intro idx s hwf
    have hwf0 := hwf item (by simp)
    have hd : isDict item = true := by
      apply isDict_of_chain
      have : isDictChain item = true ∧ wfTitleVal (pyGet item titleKey) = true := by
        simpa [wfItem, Bool.and_eq_true] using hwf0
      exact this.1
    obtain ⟨item2, final, hstep, hid2, hfresh, hframe⟩ :=
      cleanStep_spec (uuid idx) s item hwf0
    obtain ⟨out, hout, hlen, hfreshall, hpair, hfa⟩ :=
      ih (idx + 1) (setInsert final s) (fun it hit => hwf it (by simp [hit]))
    refine ⟨item2 :: out, ?_, ?_, ?_, ?_, ?_⟩
    · rw [cleanItems_cons_dict uuid idx s item rest hd, hstep]
      show (match cleanItems uuid rest (idx + 1) (setInsert final s) with
        | none => none
        | some out => some (item2 :: out)) = _
      rw [hout]
    · simp [hlen]
    · intro it hit
      rcases List.mem_cons.mp hit with rfl | hit
      · exact ⟨final, hid2, hfresh⟩
      · obtain ⟨v, hv, hvs⟩ := hfreshall it hit
        exact ⟨v, hv, fun hmem => hvs (subset_setInsert final s v hmem)⟩
    · simp only [List.map_cons]
      refine List.Pairwise.cons ?_ hpair
      intro o ho
      obtain ⟨it, hit, rfl⟩ := List.mem_map.mp ho
      obtain ⟨v, hv, hvs⟩ := hfreshall it hit
      rw [hid2, hv]
      intro he
      injection he with he
      subst he
      exact hvs (mem_setInsert_self final s)
    · exact List.Forall₂.cons hframe hfa


/-- **C3, counterexample.**  An existing item can carry the empty-string
id, which the seeding filter `if item.get('id')` skips.  A new item whose
title contains only punctuation slugs to the empty string, which then
collides with nothing in the seeded set and is returned as is: the
returned id `""` equals an id present in the existing items, refuting the
disjointness as stated. -/
theorem C3_empty_id_counterexample :
    clean_and_deduplicate_items (fun _ => "deadbeef".data)
      [.dictCons titleKey (.str "!!!".data) .dictNil]
      [.dictCons idKey (.str []) .dictNil] =
      some [.dictCons titleKey (.str "!!!".data)
        (.dictCons idKey (.str []) .dictNil)] ∧
    pyGet (.dictCons idKey (.str []) .dictNil) idKey = some (.str []) := by
  constructor
  · decide
  · decide

/-- **C3, amended.**  For every uuid stream, every list of new items
(well-shaped dicts whose truthy title, if any, is a string, so the Python
code does not raise) and every list of existing items,
`clean_and_deduplicate_items` returns a list of the same length whose ids
are pairwise distinct and disjoint from the TRUTHY ids present in the
existing items (the code seeds its collision set with
`if item.get('id')`, so falsy ids of existing items, such as the empty
string, are not protected). -/
theorem C3_unique_disjoint_ids (uuid : Nat → List Char)
    (items existing : List PyVal)
    (h : ∀ it ∈ items, wfItem it = true) :
    ∃ out, clean_and_deduplicate_items uuid items existing = some out ∧
      out.length = items.length ∧
      (out.map (fun it => pyGet it idKey)).Pairwise (· ≠ ·) ∧
      ∀ it ∈ out, ∀ v, pyGet it idKey = some v →
        ¬ ∃ e ∈ existing, pyGet e idKey = some v ∧ truthy v = true := by
  obtain ⟨out, hout, hlen, hfresh, hpair, _⟩ :=
    cleanItems_master uuid items 0 (seedIds existing) h
  refine ⟨out, hout, hlen, hpair, ?_⟩
  intro it hit v hv hex
  obtain ⟨v', hv', hvs⟩ := hfresh it hit
  rw [hv] at hv'
  injection hv' with hv'
  subst hv'
  exact hvs ((seedIds_mem existing v).mpr hex)

/-- Witness for `C3_unique_disjoint_ids`: two items with the same title
against one existing item. -/
theorem C3_unique_disjoint_ids_witness :
    ∃ out, clean_and_deduplicate_items (fun _ => "deadbeef".data)
        [.dictCons titleKey (.str "Hanoi House".data) .dictNil,
         .dictCons titleKey (.str "Hanoi House".data) .dictNil]
        [.dictCons idKey (.str "hanoi-house".data) .dictNil] = some out ∧
      out.length = 2 ∧
      (out.map (fun it => pyGet it idKey)).Pairwise (· ≠ ·) ∧
      ∀ it ∈ out, ∀ v, pyGet it idKey = some v →
        ¬ ∃ e ∈ [PyVal.dictCons idKey (.str "hanoi-house".data) .dictNil],
          pyGet e idKey = some v ∧ truthy v = true :=
  C3_unique_disjoint_ids (fun _ => "deadbeef".data)
    [.dictCons titleKey (.str "Hanoi House".data) .dictNil,
     .dictCons titleKey (.str "Hanoi House".data) .dictNil]
    [.dictCons idKey (.str "hanoi-house".data) .dictNil]
    (by decide)

/-- **C10.**  On inputs the code processes without raising, the returned
list has one entry per input item, in order, and each returned item agrees
with its input item on every key other than `id` (only the `id` entry is
added or rewritten); the existing-items list is only read.  Object
identity (the in-place mutation itself) is not expressible in a pure
embedding; this is its extensional content. -/
theorem C10_only_id_rewritten (uuid : Nat → List Char)
    (items existing : List PyVal)
    (h : ∀ it ∈ items, wfItem it = true) :
    ∃ out, clean_and_deduplicate_items uuid items existing = some out ∧
      out.length = items.length ∧
      List.Forall₂ (fun a b => ∀ key, key ≠ idKey →
        pyGet a key = pyGet b key) out items := by
  obtain ⟨out, hout, hlen, _, _, hfa⟩ :=
    cleanItems_master uuid items 0 (seedIds existing) h
  exact ⟨out, hout, hlen, hfa⟩

/-- Witness for `C10_only_id_rewritten`: one item with a price field and
no id. -/
theorem C10_only_id_rewritten_witness :
    ∃ out, clean_and_deduplicate_items (fun _ => "cafebabe".data)
        [.dictCons "price".data (.num 7) .dictNil] [] = some out ∧
      out.length = 1 ∧
      List.Forall₂ (fun a b => ∀ key, key ≠ idKey →
        pyGet a key = pyGet b key) out
        [.dictCons "price".data (.num 7) .dictNil] :=
  C10_only_id_rewritten (fun _ => "cafebabe".data)
    [.dictCons "price".data (.num 7) .dictNil] [] (by decide)

/-! ## `StreamResultHandler` (src/utils/result_handler.py)

The two files are modelled by their contents; paths are opaque
parameters.  Write errors (logged and swallowed in the source) are not
modelled: the claim is about the data file produced by successful
writes. -/

structure StoreState where
  mdFile : List Char
  jsonFile : List Char
deriving DecidableEq

/-- `_init_files`: the markdown header (parameterised — it contains the
job id and a timestamp) and the data file seeded with `"[\n"`. -/
def init_files (header : List Char) : StoreState :=
  { mdFile := header, jsonFile := "[\n".data }

/-- `append_markdown(content)`. -/
def append_markdown (content : List Char) (st : StoreState) : StoreState :=
  { st with mdFile := st.mdFile ++ content ++ "\n\n".data }

/-- The text appended to the data file for one item. -/
def elemRender (it : PyVal) : List Char :=
  "  ".data ++ pyDumps it ++ ",\n".data

/-- `append_data(items)`: a no-op on an empty list, otherwise each item is
serialized with two leading spaces and a trailing comma-newline. -/
def append_data (items : List PyVal) (st : StoreState) : StoreState :=
  if items = [] then st
  else { st with jsonFile := st.jsonFile ++ (items.map elemRender).flatten }

/-- Position (from the end, starting at `j`) of the first comma of a
reversed list. -/
def rfindCommaAux : List Char → Nat → Option Nat
  | [], _ => none
  | c :: r, j => if c = ',' then some j else rfindCommaAux r (j + 1)

/-- `bytes.rfind(b',')` on the inspected tail: index of the last comma. -/
def rfindComma (tail : List Char) : Option Nat :=
  (rfindCommaAux tail.reverse 0).map (fun j => tail.length - 1 - j)

/-- The action taken by `finalize` once the last comma of the inspected
tail has (or has not) been located: truncate just before a trailing comma
followed only by whitespace, then close the array with `"\n]"`. -/
def finalizeAt (f : List Char) : Option Nat → List Char
  | none => f ++ "\n]".data
  | some i =>
    if pyStrip ((f.drop (f.length - min f.length 10)).drop (i + 1)) = [] then
      (f.take (f.length - min f.length 10 + i)) ++ "\n]".data
    else f ++ "\n]".data

/-- The tail-patching of `finalize`: look at the last
`search_limit = min(file_size, 10)` characters for the last comma, and
patch the file accordingly. -/
def finalizeFile (f : List Char) : List Char :=
  finalizeAt f (rfindComma (f.drop (f.length - min f.length 10)))

/-- `finalize()`: patch the data file and return the two file paths. -/
def store_finalize (mdPath jsonPath : List Char) (st : StoreState) :
    List (List Char) × StoreState :=
  ([mdPath, jsonPath], { st with jsonFile := finalizeFile st.jsonFile })

/-- The body of the items region of the final array: elements separated by
`",\n  "`. -/
def itemsText : List PyVal → List Char
  | [] => []
  | x :: r =>
    pyDumps x ++
      (match r with
       | [] => []
       | _ :: _ => ',' :: '\n' :: ' ' :: ' ' :: itemsText r)

/-! ### Finalisation: the data file round-trips as a JSON array (C4) -/

theorem append_data_jsonFile (items : List PyVal) (st : StoreState) :
    (append_data items st).jsonFile = st.jsonFile ++ (items.map elemRender).flatten := by
  by_cases h : items = []
  · subst h; simp [append_data]
  · simp [append_data, h]

theorem foldl_append_data (batches : List (List PyVal)) (st : StoreState) :
    (batches.foldl (fun s b => append_data b s) st).jsonFile =
      st.jsonFile ++ (batches.flatten.map elemRender).flatten := by
  induction batches generalizing st with
  | nil => simp
  | cons b bs ih =>
    simp only [List.foldl_cons, List.flatten_cons, List.map_append, List.flatten_append]
    rw [ih, append_data_jsonFile, List.append_assoc]

theorem rfindCommaAux_comma (rev : List Char) (j : Nat) :
    rfindCommaAux (',' :: rev) j = some j := by
  unfold rfindCommaAux
  rw [if_pos rfl]

theorem rfindComma_last (x : List Char) (c : Char) (hc : ¬c = ',') :
    rfindComma (x ++ [',', c]) = some x.length := by
  unfold rfindComma
  have h1 : (x ++ [',', c]).reverse = c :: ',' :: x.reverse := by simp
  rw [h1]
  unfold rfindCommaAux
  rw [if_neg hc, rfindCommaAux_comma]
  show some ((x ++ [',', c]).length - 1 - (0 + 1)) = some x.length
  congr 1
  simp only [List.length_append, List.length_cons, List.length_nil]
  omega

theorem finalizeAt_some (f : List Char) (i : Nat) :
    finalizeAt f (some i) =
      (if pyStrip ((f.drop (f.length - min f.length 10)).drop (i + 1)) = [] then
        (f.take (f.length - min f.length 10 + i)) ++ "\n]".data
      else f ++ "\n]".data) := rfl

/-- If the data file ends with `",\n"`, `finalize` cuts exactly that comma
and newline and closes the array. -/
theorem finalizeFile_shape (pre : List Char) :
    finalizeFile (pre ++ [',', '\n']) = pre ++ ['\n', ']'] := by
  have hlen : (pre ++ [',', '\n']).length = pre.length + 2 := by
    simp
  have htail : (pre ++ [',', '\n']).drop (pre.length + 2 - min (pre.length + 2) 10)
      = pre.drop (pre.length + 2 - min (pre.length + 2) 10) ++ [',', '\n'] := by
    rw [List.drop_append_eq_append_drop]
    have h0 : pre.length + 2 - min (pre.length + 2) 10 - pre.length = 0 := by omega
    rw [h0, List.drop_zero]
  have htc : (pre.drop (pre.length + 2 - min (pre.length + 2) 10)).length
      = pre.length - (pre.length + 2 - min (pre.length + 2) 10) := by
    simp
  unfold finalizeFile
  rw [hlen, htail, rfindComma_last _ '\n' (by decide), finalizeAt_some, hlen, htail]
  have hcond : ((pre.drop (pre.length + 2 - min (pre.length + 2) 10)) ++ [',', '\n']).drop
      ((pre.drop (pre.length + 2 - min (pre.length + 2) 10)).length + 1) = ['\n'] := by
    rw [List.drop_append_eq_append_drop]
    rw [List.drop_eq_nil_of_le (by omega)]
    have h2 : (pre.drop (pre.length + 2 - min (pre.length + 2) 10)).length + 1
        - (pre.drop (pre.length + 2 - min (pre.length + 2) 10)).length = 1 := by omega
    rw [h2]
    rfl
  rw [hcond]
  rw [if_pos (by decide)]
  have hidx : pre.length + 2 - min (pre.length + 2) 10
      + (pre.drop (pre.length + 2 - min (pre.length + 2) 10)).length = pre.length := by
    rw [htc]; omega
  rw [hidx]
  rw [List.take_left]

theorem natRepr_length_pos (m : Nat) : 0 < (natRepr m).length := by
  cases hr : natRepr m with
  | nil => exact absurd hr (natRepr_ne_nil m)
  | cons d ds => simp

/-- The fuel measure of a value is dominated by twice the length of its
rendering, in both rendering modes. -/
theorem fu_le_dumps (v : PyVal) :
    fu v ≤ 2 * (dumpsM false v).length ∧ fu v ≤ 2 * (dumpsM true v).length + 2 := by
  induction v with
  | null => exact ⟨by decide, by decide⟩
  | bool b => cases b <;> exact ⟨by decide, by decide⟩
  | num n =>
    cases n with
    | ofNat m =>
      have h := natRepr_length_pos m
      constructor <;>
        (simp only [fu, dumpsM, intRepr]; omega)
    | negSucc m =>
      have h := natRepr_length_pos (m + 1)
      constructor <;>
        (simp only [fu, dumpsM, intRepr, List.length_cons]; omega)
  | str s =>
    constructor <;>
      (simp only [fu, dumpsM, dumpStr, List.length_cons, List.length_append]; omega)
  | listNil => exact ⟨by decide, by decide⟩
  | dictNil => exact ⟨by decide, by decide⟩
  | listCons h t ihh iht =>
    obtain ⟨ihh1, _⟩ := ihh
    obtain ⟨_, iht2⟩ := iht
    constructor <;>
      (simp only [fu, dumpsM, List.length_cons, List.length_append]; omega)
  | dictCons k w t ihw iht =>
    obtain ⟨ihw1, _⟩ := ihw
    obtain ⟨_, iht2⟩ := iht
    constructor <;>
      (simp only [fu, dumpsM, List.length_cons, List.length_append]; omega)

/-- Fuel sufficient for the items mode of `parseF` over a rendered item
list. -/
def fuelNeed (l : List PyVal) : Nat := (l.map (fun it => fu it + 2)).sum

theorem fuelNeed_nil : fuelNeed [] = 0 := rfl

theorem fuelNeed_cons (x : PyVal) (r : List PyVal) :
    fuelNeed (x :: r) = fu x + 2 + fuelNeed r := by
  simp [fuelNeed]

theorem itemsText_cons (x : PyVal) (r : List PyVal) :
    itemsText (x :: r) = pyDumps x ++ (match r with
      | [] => []
      | _ :: _ => ',' :: '\n' :: ' ' :: ' ' :: itemsText r) := by
  conv_lhs => unfold itemsText

theorem itemsText_single (x : PyVal) : itemsText [x] = pyDumps x := by
  rw [itemsText_cons]
  simp

theorem itemsText_cons_cons (x y : PyVal) (r : List PyVal) :
    itemsText (x :: y :: r) =
      pyDumps x ++ ',' :: '\n' :: ' ' :: ' ' :: itemsText (y :: r) := by
  rw [itemsText_cons]

theorem fuelNeed_le (l : List PyVal) :
    fuelNeed l ≤ 2 * (itemsText l).length + 2 := by
  induction l with
  | nil => simp [fuelNeed_nil]
  | cons x r ih =>
    have hx := (fu_le_dumps x).1
    have hpd : (pyDumps x).length = (dumpsM false x).length := rfl
    cases r with
    | nil =>
      rw [fuelNeed_cons, fuelNeed_nil, itemsText_single]
      omega
    | cons y r2 =>
      rw [fuelNeed_cons, itemsText_cons_cons]
      simp only [List.length_append, List.length_cons]
      omega

theorem elemRender_eq (x : PyVal) :
    elemRender x = ' ' :: ' ' :: (pyDumps x ++ [',', '\n']) := by
  show ([' ', ' '] ++ pyDumps x) ++ [',', '\n'] = _
  simp

/-- The concatenation of the rendered elements, for a non-empty item list,
is the two-space indent followed by the separated items and a trailing
`",\n"`. -/
theorem body_eq_itemsText (l : List PyVal) (hne : l ≠ []) :
    (l.map elemRender).flatten = ' ' :: ' ' :: (itemsText l ++ [',', '\n']) := by
  induction l with
  | nil => exact absurd rfl hne
  | cons x r ih =>
    cases r with
    | nil => simp [elemRender_eq, itemsText_single]
    | cons y r2 =>
      have ih2 := ih (by simp)
      simp only [List.map_cons, List.flatten_cons] at ih2 ⊢
      rw [ih2, elemRender_eq x, itemsText_cons_cons]
      simp [List.append_assoc]

theorem parseItems_ws (fuel : Nat) (sp X : List Char)
    (h : ∀ c ∈ sp, jsonWs c = true) :
    parseF fuel .items (sp ++ X) = parseF fuel .items X := by
  cases fuel with
  | zero => rfl
  | succ f => rw [parseF_items_eq, parseF_items_eq, parseVal_ws f sp X h]

/-- The items mode of `parseF` reads back a rendered item list (with the
`",\n  "` separators of the data file) followed by the closing `"\n]"`. -/
theorem parse_itemsText (l : List PyVal) :
    l ≠ [] → (∀ v ∈ l, wfVal v = true) →
    ∀ fuel, fuelNeed l ≤ fuel → ∀ rest,
      parseF fuel .items (itemsText l ++ '\n' :: ']' :: rest) =
        some (ofList l, rest) := by
  induction l with
  | nil => intro h; exact absurd rfl h
  | cons x r ih =>
    intro _ hwf fuel hfu rest
    have hwx : wfVal x = true := hwf x (by simp)
    rw [fuelNeed_cons] at hfu
    obtain ⟨f, rfl⟩ : ∃ f, fuel = f + 1 :=
      Nat.exists_eq_succ_of_ne_zero (by omega)
    cases r with
    | nil =>
      rw [itemsText_single]
      have hval : parseF f .value (pyDumps x ++ '\n' :: ']' :: rest)
          = some (x, '\n' :: ']' :: rest) := by
        refine (parse_dumps x).1 f _ hwx ?_ ?_
        · rw [fuelNeed_nil] at hfu; omega
        · intro c hc
          simp only [List.head?_cons, Option.some.injEq] at hc
          subst hc; decide
      have hskip : skipWs ('\n' :: ']' :: rest) = ']' :: rest := by
        show skipWs (['\n'] ++ ']' :: rest) = _
        rw [skipWs_append_ws ['\n'] _ (by decide)]
        exact skipWs_not_ws ']' rest (by decide)
      rw [parseF_items_run f _ x _ ']' rest hval hskip]
      simp [itemsCont, ofList]
    | cons y r2 =>
      rw [itemsText_cons_cons]
      have hrw : (pyDumps x ++ ',' :: '\n' :: ' ' :: ' ' :: itemsText (y :: r2))
            ++ '\n' :: ']' :: rest
          = pyDumps x ++
              ',' :: '\n' :: ' ' :: ' ' :: (itemsText (y :: r2) ++ '\n' :: ']' :: rest) := by
        simp
      rw [hrw]
      have hval : parseF f .value (pyDumps x ++
            ',' :: '\n' :: ' ' :: ' ' :: (itemsText (y :: r2) ++ '\n' :: ']' :: rest))
          = some (x, ',' :: '\n' :: ' ' :: ' ' :: (itemsText (y :: r2) ++ '\n' :: ']' :: rest)) := by
        refine (parse_dumps x).1 f _ hwx (by omega) ?_
        intro c hc
        simp only [List.head?_cons, Option.some.injEq] at hc
        subst hc; decide
      have hskip : skipWs (',' :: '\n' :: ' ' :: ' ' ::
            (itemsText (y :: r2) ++ '\n' :: ']' :: rest))
          = ',' :: '\n' :: ' ' :: ' ' :: (itemsText (y :: r2) ++ '\n' :: ']' :: rest) :=
        skipWs_not_ws ',' _ (by decide)
      rw [parseF_items_run f _ x _ ',' _ hval hskip]
      have hin : parseF f .items ('\n' :: ' ' :: ' ' ::
            (itemsText (y :: r2) ++ '\n' :: ']' :: rest))
          = some (ofList (y :: r2), rest) := by
        show parseF f .items (['\n', ' ', ' '] ++ (itemsText (y :: r2) ++ '\n' :: ']' :: rest)) = _
        rw [parseItems_ws f _ _ (by decide)]
        exact ih (by simp) (fun v hv => hwf v (by simp [hv])) f (by omega) rest
      simp only [itemsCont]
      rw [hin]
      simp [ofList]

theorem pyJsonLoads_of_parse (s : List Char) (v : PyVal)
    (h : parseF (2 * s.length + 4) .value s = some (v, [])) :
    pyJsonLoads s = some v := by
  unfold pyJsonLoads
  rw [h]
  rfl

/-- **C4.**  After initialisation and any sequence of `append_data` calls
whose item lists total N (well-shaped) items, `finalize` returns the two
file paths, and the data file contents parse under `json.loads` as exactly
the JSON array of those N items in order (in particular, an array of
exactly N elements). -/
theorem C4_finalize_array (header mdPath jsonPath : List Char)
    (batches : List (List PyVal))
    (hwf : ∀ b ∈ batches, ∀ v ∈ b, wfVal v = true) :
    (store_finalize mdPath jsonPath
        (batches.foldl (fun st b => append_data b st) (init_files header))).1
      = [mdPath, jsonPath] ∧
    pyJsonLoads (store_finalize mdPath jsonPath
        (batches.foldl (fun st b => append_data b st) (init_files header))).2.jsonFile
      = some (ofList batches.flatten) ∧
    (elems (ofList batches.flatten)).length = batches.flatten.length := by
  refine ⟨rfl, ?_, by rw [elems_ofList]⟩
  have hfile : (batches.foldl (fun st b => append_data b st) (init_files header)).jsonFile
      = ['[', '\n'] ++ (batches.flatten.map elemRender).flatten := by
    rw [foldl_append_data]
    rfl
  show pyJsonLoads (finalizeFile
      (batches.foldl (fun st b => append_data b st) (init_files header)).jsonFile)
    = some (ofList batches.flatten)
  rw [hfile]
  cases hL : batches.flatten with
  | nil => decide
  | cons x r =>
    have hwfF : ∀ v ∈ batches.flatten, wfVal v = true := by
      intro v hv
      rw [List.mem_flatten] at hv
      obtain ⟨b, hb, hvb⟩ := hv
      exact hwf b hb v hvb
    rw [hL] at hwfF
    rw [body_eq_itemsText (x :: r) (by simp)]
    have hpre : (['[', '\n'] : List Char) ++ ' ' :: ' ' :: (itemsText (x :: r) ++ [',', '\n'])
        = ('[' :: '\n' :: ' ' :: ' ' :: itemsText (x :: r)) ++ [',', '\n'] := by
      simp
    rw [hpre, finalizeFile_shape]
    have hs : ('[' :: '\n' :: ' ' :: ' ' :: itemsText (x :: r)) ++ ['\n', ']']
        = '[' :: '\n' :: ' ' :: ' ' :: (itemsText (x :: r) ++ ['\n', ']']) := by
      simp
    rw [hs]
    apply pyJsonLoads_of_parse
    have hhead : ∃ d w, itemsText (x :: r) ++ ['\n', ']'] = d :: w ∧
        jsonWs d = false ∧ ¬d = ']' := by
      obtain ⟨d, ds, hd, hw, h1, _⟩ := dumps_head x
      cases r with
      | nil =>
        refine ⟨d, ds ++ ['\n', ']'], ?_, hw, h1⟩
        rw [itemsText_single, hd]
        simp
      | cons y r2 =>
        refine ⟨d, ds ++ (',' :: '\n' :: ' ' :: ' ' :: itemsText (y :: r2)) ++ ['\n', ']'],
          ?_, hw, h1⟩
        rw [itemsText_cons_cons, hd]
        simp
    have hlen : ('[' :: '\n' :: ' ' :: ' ' ::
          (itemsText (x :: r) ++ ['\n', ']']) : List Char).length
        = (itemsText (x :: r)).length + 6 := by
      simp only [List.length_cons, List.length_append, List.length_nil]
    have hF : 2 * ('[' :: '\n' :: ' ' :: ' ' ::
          (itemsText (x :: r) ++ ['\n', ']']) : List Char).length + 4
        = (2 * (itemsText (x :: r)).length + 15) + 1 := by
      rw [hlen]; omega
    rw [hF]
    rw [parseF_value_cons _ '[' _ (by decide), valStep_lbracket]
    have hX : skipWs (itemsText (x :: r) ++ ['\n', ']'])
        = itemsText (x :: r) ++ ['\n', ']'] := by
      obtain ⟨d, w, hdw, hw, h1⟩ := hhead
      rw [hdw]
      exact skipWs_not_ws d w hw
    have hskip : skipWs ('\n' :: ' ' :: ' ' :: (itemsText (x :: r) ++ ['\n', ']']))
        = itemsText (x :: r) ++ ['\n', ']'] := by
      show skipWs (['\n', ' ', ' '] ++ (itemsText (x :: r) ++ ['\n', ']'])) = _
      rw [skipWs_append_ws _ _ (by decide)]
      exact hX
    have harr : arrOpen (2 * (itemsText (x :: r)).length + 15)
          (itemsText (x :: r) ++ ['\n', ']'])
        = parseF (2 * (itemsText (x :: r)).length + 15) .items
            (itemsText (x :: r) ++ ['\n', ']']) := by
      obtain ⟨d, w, hdw, hw, h1⟩ := hhead
      rw [hdw, arrOpen_cons, if_neg h1, ← hdw]
    rw [hskip, harr]
    have hfuel : fuelNeed (x :: r) ≤ 2 * (itemsText (x :: r)).length + 15 :=
      le_trans (fuelNeed_le (x :: r)) (by omega)
    exact parse_itemsText (x :: r) (by simp) hwfF _ hfuel []

/-- Witness for `C4_finalize_array`: one `append_data` call with the items
`3` and `"hi"` yields a data file that parses back as that two-element
array. -/
theorem C4_finalize_array_witness :
    (∀ b ∈ [[PyVal.num 3, PyVal.str ['h', 'i']]], ∀ v ∈ b, wfVal v = true) ∧
    ((store_finalize ['m'] ['j']
        ([[PyVal.num 3, PyVal.str ['h', 'i']]].foldl (fun st b => append_data b st)
          (init_files ['h']))).1
      = [['m'], ['j']] ∧
    pyJsonLoads (store_finalize ['m'] ['j']
        ([[PyVal.num 3, PyVal.str ['h', 'i']]].foldl (fun st b => append_data b st)
          (init_files ['h']))).2.jsonFile
      = some (ofList [[PyVal.num 3, PyVal.str ['h', 'i']]].flatten) ∧
    (elems (ofList [[PyVal.num 3, PyVal.str ['h', 'i']]].flatten)).length
      = [[PyVal.num 3, PyVal.str ['h', 'i']]].flatten.length) :=
  ⟨by decide, C4_finalize_array ['h'] ['m'] ['j']
    [[PyVal.num 3, PyVal.str ['h', 'i']]] (by decide)⟩

/-! ## `ExtractionPipeline.run` (src/core/pipeline.py)

The run is modelled in three stages matching the source: split (reusing
`split_markdown_to_blocks`), batching (`"\n\n".join(blocks[i:i+bs])` for
`i in range(0, len(blocks), bs)`), and concurrent execution.  The provider
is a parameter `outcome` mapping batch content to either a raised
exception (`Except.error` with its message) or a returned item list;
`_process_batch` catches the exception and returns `[]`, and also maps a
falsy (empty) item list to `[]` — which for a list is the list itself.
`asyncio.gather` stores each result at its task index whatever the order
of completion, so execution is a fold over a completion order `σ` (a
permutation of the batch indices) writing a results table, while the
`finally` clause appends `int((completed/total)*100)` to the emitted
progress sequence, `completed` counting the batches settled so far. -/

/-- Chunking `l[i:i+bs]` for `i in range(0, len(l), bs)`, fuelled (each
step with positive `bs` consumes at least one element, so `l.length` fuel
suffices). -/
def chunksF {α : Type} : Nat → Nat → List α → List (List α)
  | 0, _, _ => []
  | _ + 1, _, [] => []
  | fuel + 1, bs, x :: r => ((x :: r).take bs) :: chunksF fuel bs ((x :: r).drop bs)

/-- The batch slices of a block list. -/
def chunks {α : Type} (bs : Nat) (l : List α) : List (List α) :=
  chunksF l.length bs l

/-- Step 1 and 2 of `run`: split the markdown into blocks and join each
batch-size slice with `"\n\n"`. -/
def batchedBlocks (custom : Option (List Char → List (List Char)))
    (markdown : List Char) (m bs : Nat) : List (List Char) :=
  (chunks bs (split_markdown_to_blocks markdown m custom)).map (List.intercalate nn)

/-- The mutable state of a run: the `results` table indexed by batch
number (filled by `asyncio.gather`) and the sequence of percentages passed
to the progress callback, in emission order. -/
structure RunState where
  results : List (List PyVal)
  progress : List Nat

/-- What `_process_batch` returns for one provider outcome: a raised
exception is caught and yields `[]`; a returned list is passed through
(`if items: return items` and `else: return []` both return `items`, an
empty list being falsy). -/
def settleBatch : Except (List Char) (List PyVal) → List PyVal
  | .ok items => items
  | .error _ => []

/-- The settled contribution of batch `i`. -/
def settleAt (outcome : List Char → Except (List Char) (List PyVal))
    (batched : List (List Char)) (i : Nat) : List PyVal :=
  settleBatch (outcome (batched.getD i []))

/-- Round `a / b` to the nearest integer, ties to even: the IEEE-754
default rounding applied to a significand. -/
def rnd2even (a b : Nat) : Nat :=
  if 2 * (a % b) < b then a / b
  else if b < 2 * (a % b) then a / b + 1
  else if (a / b) % 2 = 0 then a / b else a / b + 1

/-- The smallest `j` with `t ≤ c * 2^j` — the normalisation shift that
scales the quotient `c / t` into `[2^52, 2^53)`.  Fuelled: for `1 ≤ c`,
`fuel = t` steps always reach the condition (`2^t ≥ t`). -/
def quotExpF : Nat → Nat → Nat → Nat
  | 0, _, _ => 0
  | fuel + 1, c, t => if t ≤ c then 0 else quotExpF fuel (2 * c) t + 1

/-- The normalisation shift of `c / t`. -/
def quotExp (c t : Nat) : Nat := quotExpF t c t

/-- The IEEE-754 double of the quotient `c / t` for `1 ≤ c ≤ t`, as a
pair `(s, j)` denoting the exact rational `s / 2^(52+j)` with
`2^52 ≤ s < 2^53` (except `j = 0`, `s = 2^52` for `c = t`, the value
`1.0`): the infinitely precise quotient is scaled into the significand
range and rounded to nearest, ties to even, renormalising when the
rounding overflows to `2^53`.  Subnormals (`t ≥ 2^1022`) are outside the
intended domain. -/
def dblDiv (c t : Nat) : Nat × Nat :=
  if rnd2even (c * 2 ^ (52 + quotExp c t)) t = 2 ^ 53 then
    (2 ^ 52, quotExp c t - 1)
  else (rnd2even (c * 2 ^ (52 + quotExp c t)) t, quotExp c t)

/-- `int(x * 100)` for a positive double `x = s / 2^(52+j)` in `(0, 1]`:
the exact product `s * 100` (an integer below `2^60`) is rounded back to
a 53-bit significand — nearest, ties to even, renormalising at `2^53` —
and the resulting double is truncated towards zero. -/
def dblMul100Trunc (s j : Nat) : Nat :=
  if rnd2even (s * 100) (2 ^ (if s * 100 < 2 ^ 59 then 6 else 7)) = 2 ^ 53 then
    2 ^ 52 / 2 ^ (52 + j - ((if s * 100 < 2 ^ 59 then 6 else 7) + 1))
  else
    rnd2even (s * 100) (2 ^ (if s * 100 < 2 ^ 59 then 6 else 7))
      / 2 ^ (52 + j - (if s * 100 < 2 ^ 59 then 6 else 7))

/-- Python `int((c / t) * 100)` for `1 ≤ c ≤ t`: the quotient `c / t` is
an IEEE-754 double and so is its product with 100, so the result can sit
one below the exact floor — `c = 29`, `t = 50` gives 57, not 58, because
`0.58 * 100` is the double just under 58. -/
def pyIntProgress (c t : Nat) : Nat :=
  dblMul100Trunc (dblDiv c t).1 (dblDiv c t).2

/-- One batch settling: store its items at its index and emit
`int((completed/total)*100)` — evaluated in double arithmetic — where
`completed` is the number of batches settled so far including this
one. -/
def runStep (outcome : List Char → Except (List Char) (List PyVal))
    (batched : List (List Char)) (st : RunState) (i : Nat) : RunState :=
  { results := st.results.set i (settleAt outcome batched i),
    progress := st.progress ++ [pyIntProgress (st.progress.length + 1) batched.length] }

/-- `ExtractionPipeline.run`: returns the flattened results table (the
aggregation loop after `asyncio.gather`) and the emitted progress
sequence, for a completion order `σ`. -/
def pipelineRun (outcome : List Char → Except (List Char) (List PyVal))
    (custom : Option (List Char → List (List Char)))
    (markdown : List Char) (m bs : Nat) (σ : List Nat) :
    List PyVal × List Nat :=
  ((σ.foldl (runStep outcome (batchedBlocks custom markdown m bs))
      { results := List.replicate (batchedBlocks custom markdown m bs).length [],
        progress := [] }).results.flatten,
   (σ.foldl (runStep outcome (batchedBlocks custom markdown m bs))
      { results := List.replicate (batchedBlocks custom markdown m bs).length [],
        progress := [] }).progress)

theorem runStep_results (outcome : List Char → Except (List Char) (List PyVal))
    (batched : List (List Char)) (st : RunState) (i : Nat) :
    (runStep outcome batched st i).results
      = st.results.set i (settleAt outcome batched i) := rfl

theorem runStep_progress (outcome : List Char → Except (List Char) (List PyVal))
    (batched : List (List Char)) (st : RunState) (i : Nat) :
    (runStep outcome batched st i).progress
      = st.progress ++ [pyIntProgress (st.progress.length + 1) batched.length] := rfl

theorem run_foldl_results (outcome : List Char → Except (List Char) (List PyVal))
    (batched : List (List Char)) (σ : List Nat) (st : RunState) :
    (σ.foldl (runStep outcome batched) st).results
      = σ.foldl (fun r i => r.set i (settleAt outcome batched i)) st.results := by
  induction σ generalizing st with
  | nil => rfl
  | cons i σ2 ih =>
    rw [List.foldl_cons, List.foldl_cons, ih, runStep_results]

theorem run_foldl_progress (outcome : List Char → Except (List Char) (List PyVal))
    (batched : List (List Char)) (σ : List Nat) (st : RunState) :
    (σ.foldl (runStep outcome batched) st).progress
      = st.progress ++ (List.range σ.length).map
          (fun k => pyIntProgress (st.progress.length + k + 1) batched.length) := by
  induction σ generalizing st with
  | nil => simp
  | cons i σ2 ih =>
    rw [List.foldl_cons, ih, runStep_progress]
    simp only [List.length_append, List.length_cons, List.length_nil, Nat.zero_add]
    rw [List.append_assoc]
    congr 1
    rw [List.range_succ_eq_map, List.map_cons, List.map_map]
    simp only [List.singleton_append]
    refine List.cons_eq_cons.mpr ⟨rfl, ?_⟩
    apply List.map_congr_left
    intro k hk
    have harg : st.progress.length + 1 + k + 1 = st.progress.length + (k + 1) + 1 := by
      omega
    show pyIntProgress (st.progress.length + 1 + k + 1) batched.length
        = pyIntProgress (st.progress.length + (k + 1) + 1) batched.length
    rw [harg]

/-- The results table after writing `f i` at every index `i` of `σ`: each
write is independent of the current table, so only membership in `σ`
matters. -/
theorem foldl_set_getElem (f : Nat → List PyVal) (σ : List Nat)
    (st : List (List PyVal)) (k : Nat) :
    (σ.foldl (fun r i => r.set i (f i)) st)[k]?
      = if k ∈ σ ∧ k < st.length then some (f k) else st[k]? := by
  induction σ generalizing st with
  | nil => simp
  | cons i σ2 ih =>
    rw [List.foldl_cons, ih]
    rw [List.length_set]
    by_cases h1 : k ∈ σ2 ∧ k < st.length
    · rw [if_pos h1, if_pos ⟨List.mem_cons_of_mem i h1.1, h1.2⟩]
    · rw [if_neg h1]
      by_cases h2 : k = i
      · subst h2
        by_cases h3 : k < st.length
        · rw [List.getElem?_set_eq_of_lt (f k) h3, if_pos ⟨List.mem_cons_self k σ2, h3⟩]
        · rw [List.set_eq_of_length_le (by omega)]
          rw [if_neg (fun hc => h3 hc.2)]
      · rw [List.getElem?_set_ne (fun hh => h2 hh.symm)]
        rw [if_neg ?hc]
        case hc =>
          intro hc
          rcases List.mem_cons.mp hc.1 with h4 | h4
          · exact h2 h4
          · exact h1 ⟨h4, hc.2⟩

/-- Writing `f i` at every index of a permutation of `range n` into a
table of `n` default entries produces the table of all `f` values. -/
theorem foldl_set_perm (f : Nat → List PyVal) (σ : List Nat) (n : Nat)
    (hperm : σ.Perm (List.range n)) :
    σ.foldl (fun r i => r.set i (f i)) (List.replicate n ([] : List PyVal))
      = (List.range n).map f := by
  apply List.ext_getElem?
  intro k
  rw [foldl_set_getElem]
  by_cases hk : k < n
  · have hmem : k ∈ σ := hperm.mem_iff.mpr (List.mem_range.mpr hk)
    rw [if_pos ⟨hmem, by simpa using hk⟩]
    rw [List.getElem?_map]
    have hr : (List.range n)[k]? = some k := by
      rw [List.getElem?_eq_getElem (by simpa using hk)]
      simp
    rw [hr]
    rfl
  · have hmem : k ∉ σ := fun hc => hk (List.mem_range.mp (hperm.mem_iff.mp hc))
    rw [if_neg (fun hc => hmem hc.1)]
    rw [List.getElem?_eq_none (by simpa using Nat.le_of_not_lt hk),
      List.getElem?_eq_none (by simpa using Nat.le_of_not_lt hk)]

/-- **C5.**  If the provider outcome for batch `j` is a raised exception
or an empty item list, the run still returns (the model is total: the
exception is absorbed by `settleBatch`), batch `j` contributes `[]`, and
the result is the concatenation, in batch order, of the contributions of
all the other batches — whatever the completion order. -/
theorem C5_batch_isolation
    (outcome : List Char → Except (List Char) (List PyVal))
    (custom : Option (List Char → List (List Char)))
    (markdown : List Char) (m bs : Nat) (σ : List Nat) (j : Nat)
    (hperm : σ.Perm (List.range (batchedBlocks custom markdown m bs).length))
    (hj : j < (batchedBlocks custom markdown m bs).length)
    (hfail : (∃ e, outcome ((batchedBlocks custom markdown m bs).getD j []) =
        .error e) ∨
      outcome ((batchedBlocks custom markdown m bs).getD j []) = .ok []) :
    settleAt outcome (batchedBlocks custom markdown m bs) j = [] ∧
    (pipelineRun outcome custom markdown m bs σ).1
      = ((List.range (batchedBlocks custom markdown m bs).length).map
          (fun i => if i = j then []
            else settleAt outcome (batchedBlocks custom markdown m bs) i)).flatten := by
  have hsj : settleAt outcome (batchedBlocks custom markdown m bs) j = [] := by
    unfold settleAt
    rcases hfail with ⟨e, he⟩ | he
    · rw [he]
      rfl
    · rw [he]
      rfl
  refine ⟨hsj, ?_⟩
  show (σ.foldl (runStep outcome (batchedBlocks custom markdown m bs))
      { results := List.replicate (batchedBlocks custom markdown m bs).length [],
        progress := [] }).results.flatten = _
  rw [run_foldl_results,
    foldl_set_perm (settleAt outcome (batchedBlocks custom markdown m bs)) σ _ hperm]
  congr 1
  apply List.map_congr_left
  intro i hi
  by_cases h2 : i = j
  · subst h2
    rw [if_pos rfl, hsj]
  · rw [if_neg h2]

/-- A single block long enough (301 characters) to survive the splitter's
length filter. -/
def mdOneBlock : List Char := List.replicate 301 'a'

/-- A provider that raises on every batch. -/
def failProv : List Char → Except (List Char) (List PyVal) :=
  fun _ => .error ['b']

set_option maxRecDepth 100000 in
/-- Witness for `C5_batch_isolation`: a one-block markdown whose single
batch raises; the run returns the empty aggregate. -/
theorem C5_batch_isolation_witness :
    ([0] : List Nat).Perm (List.range (batchedBlocks none mdOneBlock 4000 1).length) ∧
    0 < (batchedBlocks none mdOneBlock 4000 1).length ∧
    ((∃ e, failProv ((batchedBlocks none mdOneBlock 4000 1).getD 0 []) = .error e) ∨
      failProv ((batchedBlocks none mdOneBlock 4000 1).getD 0 []) = .ok []) ∧
    (settleAt failProv (batchedBlocks none mdOneBlock 4000 1) 0 = [] ∧
     (pipelineRun failProv none mdOneBlock 4000 1 [0]).1
       = ((List.range (batchedBlocks none mdOneBlock 4000 1).length).map
           (fun i => if i = 0 then []
             else settleAt failProv (batchedBlocks none mdOneBlock 4000 1) i)).flatten) :=
  ⟨by decide, by decide, Or.inl ⟨['b'], rfl⟩,
    C5_batch_isolation failProv none mdOneBlock 4000 1 [0] 0 (by decide) (by decide)
      (Or.inl ⟨['b'], rfl⟩)⟩

/-- Python `round(a / b)` on a nonnegative rational `a / b` (`b > 0`):
round to the nearest integer, ties to even (this is the rounding the
claim asserts for the progress percentages). -/
def pyRound (a b : Nat) : Nat :=
  if 2 * (a % b) < b then a / b
  else if b < 2 * (a % b) then a / b + 1
  else if a / b % 2 = 0 then a / b else a / b + 1

/-- Three surviving blocks: with batch size 1 the run has three batches. -/
def c9md : List Char := mdOneBlock ++ nn ++ mdOneBlock ++ nn ++ mdOneBlock

/-- A provider returning one item for every batch. -/
def okOneProv : List Char → Except (List Char) (List PyVal) :=
  fun _ => .ok [.num 1]

/-- The double-arithmetic truncation can even fall one below the exact
rational floor: `0.58 * 100` is the double `57.99999999999999`, so Python
emits 57 where exact arithmetic would give 58. -/
theorem pyIntProgress_below_floor :
    pyIntProgress 29 50 = 57 ∧ 29 * 100 / 50 = 58 ∧
    pyIntProgress 29 100 = 28 ∧ pyIntProgress 7 50 = 14 := by
  refine ⟨by decide, by decide, by decide, by decide⟩

set_option maxRecDepth 1000000 in
/-- **C9, counterexample.**  A run with three batches emits the progress
sequence `[33, 66, 100]`: after the second batch settles the code emits
66 (`int` truncates the double `2/3*100 = 66.66…` towards zero), not the
67 that rounding to nearest would give. -/
theorem C9_progress_counterexample :
    (batchedBlocks none c9md 4000 1).length = 3 ∧
    (pipelineRun okOneProv none c9md 4000 1 [0, 1, 2]).2 = [33, 66, 100] ∧
    ¬([33, 66, 100] : List Nat)
      = (List.range 3).map (fun k => pyRound ((k + 1) * 100) 3) :=
  ⟨by decide, by decide, by decide⟩

/-- **C9, amended.**  After each batch settles — in any completion order,
and whether it succeeded, was empty, or raised — the progress callback
receives `int((completed/total)*100)` evaluated in IEEE-754 double
arithmetic (truncation of the rounded product, which is NOT `round` and
can even sit one below the exact floor: `completed = 29`, `total = 50`
emits 57, not 58), where `completed` counts the batches settled so far;
the emitted value depends only on that count, so over a whole run the
sequence is exactly the model applied to `1, …, total`. -/
theorem C9_progress_truncation
    (outcome : List Char → Except (List Char) (List PyVal))
    (custom : Option (List Char → List (List Char)))
    (markdown : List Char) (m bs : Nat) (σ : List Nat)
    (hperm : σ.Perm (List.range (batchedBlocks custom markdown m bs).length)) :
    (pipelineRun outcome custom markdown m bs σ).2
      = (List.range (batchedBlocks custom markdown m bs).length).map
          (fun k => pyIntProgress (k + 1) (batchedBlocks custom markdown m bs).length) := by
  show (σ.foldl (runStep outcome (batchedBlocks custom markdown m bs))
      { results := List.replicate (batchedBlocks custom markdown m bs).length [],
        progress := [] }).progress = _
  rw [run_foldl_progress]
  have hl : σ.length = (batchedBlocks custom markdown m bs).length := by
    rw [hperm.length_eq, List.length_range]
  simp [hl]

set_option maxRecDepth 100000 in
/-- Witness for `C9_progress_truncation`: the one-batch run emits
`[100]`. -/
theorem C9_progress_truncation_witness :
    ([0] : List Nat).Perm (List.range (batchedBlocks none mdOneBlock 4000 1).length) ∧
    (pipelineRun okOneProv none mdOneBlock 4000 1 [0]).2
      = (List.range (batchedBlocks none mdOneBlock 4000 1).length).map
          (fun k => pyIntProgress (k + 1) (batchedBlocks none mdOneBlock 4000 1).length) :=
  ⟨by decide, C9_progress_truncation okOneProv none mdOneBlock 4000 1 [0] (by decide)⟩

end Scraper
